import Mathlib

/-!
# UniConf: handles, keys, generators and iterators of the wvstreams registry

A shallow embedding of `include/uniconf.h`, `include/unilistgen.h`,
`uniconf/uninullgen.cc`, `configfile/cfgsection.cc`, `utils/wvbuffer.cc` and
`dbus/wvdbusserver.cc`.  Member functions whose bodies are in these files are
translated line by line.  Classes and member functions that are only declared
or used there are modelled from the specification and say so in their doc
comment.
-/

namespace WvStreams

/-! ## Definitions -/

/-- Modelled from the spec: the value class `UniConfKey` (its header `uniconfkey.h` is not part of
the sources).  A key is the ordered sequence of its path segments, the empty sequence being the
root. -/
structure UniConfKey where
  segments : List String
deriving DecidableEq, Repr

namespace UniConfKey

/-- Modelled from the spec: `UniConfKey::EMPTY`, the key of the root. -/
def EMPTY : UniConfKey := ⟨[]⟩

/-- Modelled from the spec: `UniConfKey::ANY`, the one-segment wildcard key. -/
def ANY : UniConfKey := ⟨["*"]⟩

/-- Modelled from the spec: the constructor `UniConfKey(path, key)`, which is `concat`:
the new key is `path` followed by `key`. -/
def concat (path key : UniConfKey) : UniConfKey := ⟨path.segments ++ key.segments⟩

/-- Modelled from the spec: `numsegments()` (`segment_count`). -/
def numsegments (k : UniConfKey) : Nat := k.segments.length

/-- Modelled from the spec: `removelast()` removes the last segment and is the identity on the
root key. -/
def removelast (k : UniConfKey) : UniConfKey := ⟨k.segments.dropLast⟩

/-- Modelled from the spec: `last()` is the key made of the final segment (empty for the root). -/
def last (k : UniConfKey) : UniConfKey := ⟨k.segments.drop (k.segments.length - 1)⟩

/-- Modelled from the spec: a segment as key comparison sees it, with the letters `A`..`Z`
lowered: keys are compared ignoring letter case. -/
def foldSegment (s : String) : List Char := s.data.map Char.toLower

/-- Modelled from the spec: the segments of a key as key comparison sees them. -/
def folded (k : UniConfKey) : List (List Char) := k.segments.map foldSegment

/-- Modelled from the spec: equality of keys, which ignores letter case and compares segment by
segment. -/
def sameAs (a b : UniConfKey) : Bool := a.folded == b.folded

/-- Modelled from the spec: whether `a` is an ancestor of `b` or `b` itself (the segments of `a`
start the segments of `b`, compared ignoring letter case). -/
def covers (a b : UniConfKey) : Bool := a.folded.isPrefixOf b.folded

end UniConfKey

/-- A `WvString`; `none` is `WvString::null`. -/
abbrev WvString := Option String

/-- The null string `WvString::null`. -/
def WvString.null : WvString := none

/-- Modelled from the spec: `UniConfDepth::Type` with the three depths of the spec
(only `INFINITE` is named in the header). -/
inductive UniConfDepth where
  | NONE
  | ONELEVEL
  | INFINITE
deriving DecidableEq, Repr

/-- Modelled from the spec: the keys `changed` that a depth specification at `base` covers:
`NONE` the key itself, `ONELEVEL` its direct children, `INFINITE` the whole subtree. -/
def UniConfDepth.region (d : UniConfDepth) (base changed : UniConfKey) : Bool :=
  match d with
  | .NONE => changed.sameAs base
  | .ONELEVEL => base.covers changed && changed.numsegments == base.numsegments + 1
  | .INFINITE => base.covers changed

/-- A registration of a change callback: `(key, depth, callback, userdata)`.  Callbacks and user
data pointers are represented by their identity. -/
structure Watch where
  key : UniConfKey
  depth : UniConfDepth
  callback : Nat
  userdata : Nat
deriving DecidableEq, Repr

/-- One invocation of a callback, with the key whose change caused it. -/
structure Fired where
  callback : Nat
  userdata : Nat
  changed : UniConfKey
deriving DecidableEq, Repr

/-- Modelled from the spec: the class `UniConfRoot` (`uniconfroot.h` is not part of the sources),
reduced to one in-memory backend: the stored `(key, value)` entries, whether the backend accepts
writes, the registered watches and the log of callback invocations. -/
structure UniConfRoot where
  writable : Bool
  entries : List (UniConfKey × String)
  watches : List Watch
  fired : List Fired
deriving DecidableEq, Repr

namespace UniConfRoot

/-- Modelled from the spec: `exists(key)`: the key is stored or is on the path to a stored key. -/
def «exists» (r : UniConfRoot) (key : UniConfKey) : Bool :=
  r.entries.any (fun e => key.covers e.1)

/-- Modelled from the spec: `get(key)`: the stored value or absent. -/
def get (r : UniConfRoot) (key : UniConfKey) : WvString :=
  (r.entries.find? (fun e => e.1.sameAs key)).map (fun e => e.2)

/-- Modelled from the spec: the names of a list without repetition, the first of each group of
names that are equal ignoring letter case. -/
def distinctNames : List String → List String
  | [] => []
  | x :: xs =>
    x :: (distinctNames xs).filter
      (fun y => UniConfKey.foldSegment y != UniConfKey.foldSegment x)

/-- Modelled from the spec: `iterate_children(key)`: the names of the direct children of `key`,
each once, as the first entry that has the child spells it. -/
def children (r : UniConfRoot) (key : UniConfKey) : List String :=
  distinctNames (r.entries.filterMap (fun e =>
    if key.covers e.1 then e.1.segments.get? key.numsegments else none))

/-- Modelled from the spec: the entries after `set(key, value)` on a backend that accepts it:
an absent value deletes the key and all descendants, a present value creates or updates it. -/
def store (entries : List (UniConfKey × String)) (key : UniConfKey) :
    WvString → List (UniConfKey × String)
  | none => entries.filter (fun e => !key.covers e.1)
  | some v =>
    if entries.any (fun e => e.1.sameAs key) then
      entries.map (fun e => if e.1.sameAs key then (e.1, v) else e)
    else entries ++ [(key, v)]

/-- Modelled from the spec: `set(key, value)` returns success or failure; a rejected write changes
nothing; an accepted one updates the entries and fires every registered watch whose region
contains the key. -/
def set (r : UniConfRoot) (key : UniConfKey) (value : WvString) : Bool × UniConfRoot :=
  if r.writable then
    (true, { r with
      entries := store r.entries key value
      fired := r.fired ++
        (r.watches.filter (fun w => w.depth.region w.key key)).map
          (fun w => ⟨w.callback, w.userdata, key⟩) })
  else (false, r)

end UniConfRoot

/-- The heap of `UniConfRoot` objects; a root pointer is an index into it. -/
structure World where
  roots : List UniConfRoot
deriving DecidableEq, Repr

/-- The root object a pointer refers to; `none` for `NULL` and for a dangling pointer. -/
def World.deref (w : World) : Option Nat → Option UniConfRoot
  | none => none
  | some p => w.roots.get? p

/-- The class `UniConf`: a handle `(xroot, xfullkey)`; `xroot = none` is the `NULL` pointer. -/
structure UniConf where
  xroot : Option Nat
  xfullkey : UniConfKey
deriving DecidableEq, Repr

namespace UniConf

/-- The constructor `UniConf()`: the NULL handle. -/
def null : UniConf := ⟨none, UniConfKey.EMPTY⟩

/-- The constructor `UniConf(UniConfRoot &root)`: the handle at the base of a root. -/
def ofRoot (root : Nat) : UniConf := ⟨some root, UniConfKey.EMPTY⟩

/-- The member `root()`. -/
def root (self : UniConf) : UniConf := ⟨self.xroot, UniConfKey.EMPTY⟩

/-- The member `parent()`: `UniConf(xroot, xfullkey.removelast())`. -/
def parent (self : UniConf) : UniConf := ⟨self.xroot, self.xfullkey.removelast⟩

/-- The member `rootobj()`. -/
def rootobj (self : UniConf) : Option Nat := self.xroot

/-- The member `isnull()`. -/
def isnull (self : UniConf) : Bool := self.xroot == none

/-- The member `fullkey()`. -/
def fullkey (self : UniConf) : UniConfKey := self.xfullkey

/-- The member `key()`: `xfullkey.last()`. -/
def key (self : UniConf) : UniConfKey := self.xfullkey.last

/-- The member `operator[]`: `UniConf(xroot, UniConfKey(xfullkey, key))`. -/
def index (self : UniConf) (key : UniConfKey) : UniConf :=
  ⟨self.xroot, UniConfKey.concat self.xfullkey key⟩

/-- The call `self[key]` in state-passing form: the value returned, the receiver after the call
and the heap of roots after the call.  The member is `const` and its body only builds the new
handle. -/
def indexCall (self : UniConf) (key : UniConfKey) (w : World) : UniConf × UniConf × World :=
  (self.index key, self, w)

/-- Modelled from the spec: `UniConf::set(value)` (declared in the header, defined in the missing
`uniconf.cc`): delegates to the root object; a handle without a root behaves as if backed by the
null generator, which rejects the write. -/
def set (self : UniConf) (value : WvString) (w : World) : Bool × World :=
  match self.xroot with
  | none => (false, w)
  | some p =>
    match w.roots.get? p with
    | none => (false, w)
    | some r => ((r.set self.xfullkey value).1, ⟨w.roots.set p (r.set self.xfullkey value).2⟩)

/-- The member `remove()`: `return set(WvString::null);`, over any implementation `setfn` of the
member `set`. -/
def removeWith (setfn : UniConf → WvString → World → Bool × World) (self : UniConf) (w : World) :
    Bool × World :=
  setfn self WvString.null w

/-- The member `remove()` over the modelled `set`. -/
def remove (self : UniConf) (w : World) : Bool × World := removeWith UniConf.set self w

/-- Modelled from the spec: `UniConf::exists()` (defined in the missing `uniconf.cc`). -/
def «exists» (self : UniConf) (w : World) : Bool :=
  match w.deref self.xroot with
  | none => false
  | some r => r.exists self.xfullkey

/-- The member `addwatch(depth, callback, userdata)`, whose body in the header is empty
(`{ } // FIXME`): the heap of roots is returned as it was. -/
def addwatch (_self : UniConf) (_depth : UniConfDepth) (_callback : Nat) (_userdata : Nat)
    (w : World) : World := w

/-- The member `delwatch(depth, callback, userdata)`, whose body in the header is empty too. -/
def delwatch (_self : UniConf) (_depth : UniConfDepth) (_callback : Nat) (_userdata : Nat)
    (w : World) : World := w

end UniConf

/-! ### Key iterators -/

/-- Modelled from the spec: a key iterator of the family `Iter`, `RecursiveIter`, `XIter` (their
member functions are defined in the missing `uniconf.cc`): finite and restartable.  `all` is what
one pass after `rewind()` yields, `pending` what is still to come, `xcurrent` the handle that
`operator()` returns. -/
structure KeyIter where
  all : List UniConf
  pending : List UniConf
  xcurrent : UniConf
deriving DecidableEq, Repr

namespace KeyIter

/-- Modelled from the spec: `rewind()` restarts the pass. -/
def rewind (it : KeyIter) : KeyIter := { it with pending := it.all }

/-- Modelled from the spec: `next()` moves to the next handle, or returns false at the end. -/
def next (it : KeyIter) : Bool × KeyIter :=
  match it.pending with
  | [] => (false, it)
  | c :: rest => (true, { it with xcurrent := c, pending := rest })

/-- Modelled from the spec: the `operator()` that `WvIterStuff` declares (the macro is not part of
the sources): the current handle. -/
def cur (it : KeyIter) : UniConf := it.xcurrent

end KeyIter

/-- Modelled from the spec: what `UniConf::Iter` over `root` yields: the direct children of the
handle, as handles. -/
def UniConf.Iter.pass (root : UniConf) (w : World) : List UniConf :=
  match w.deref root.xroot with
  | none => []
  | some r => (r.children root.xfullkey).map (fun s => root.index ⟨[s]⟩)

/-- Modelled from the spec: what `UniConf::PatternIter` over `root` yields: a filter over the
direct children, which keeps those whose name is the one-segment pattern (compared as keys are,
ignoring letter case), or every child when the pattern is `UniConfKey::ANY`. -/
def UniConf.PatternIter.pass (root : UniConf) (pattern : UniConfKey) (w : World) : List UniConf :=
  (UniConf.Iter.pass root w).filter
    (fun c => pattern == UniConfKey.ANY || c.key.sameAs pattern)

/-- Modelled from the spec: the composition of one `PatternIter` per pattern segment, left to
right: each match of a segment is the root for the next segment; no segment, no result. -/
def UniConf.XIter.compose (w : World) : UniConf → List String → List UniConf
  | _, [] => []
  | root, [p] => UniConf.PatternIter.pass root ⟨[p]⟩ w
  | root, p :: q :: ps =>
    (UniConf.PatternIter.pass root ⟨[p]⟩ w).flatMap (fun c => UniConf.XIter.compose w c (q :: ps))

/-- Modelled from the spec: what `UniConf::XIter` over `root` with `pattern` yields. -/
def UniConf.XIter.pass (root : UniConf) (pattern : UniConfKey) (w : World) : List UniConf :=
  UniConf.XIter.compose w root pattern.segments

/-- The iterator `UniConf::XIter(root, pattern)` freshly made in the world `w`. -/
def UniConf.XIter.make (root : UniConf) (pattern : UniConfKey) (w : World) : KeyIter :=
  ⟨UniConf.XIter.pass root pattern w, [], UniConf.null⟩

/-- The class `UniConf::SortedKeyIterBase`: comparator, position, count and the vector of keys. -/
structure SortedKeyIterBase where
  xroot : UniConf
  xcurrent : UniConf
  xcomparator : UniConf → UniConf → Int
  index : Nat
  count : Nat
  xkeys : List UniConf

namespace SortedKeyIterBase

/-- The order that a comparator induces: `a` is not after `b` when `comparator(a, b) <= 0`. -/
def notAfter (comparator : UniConf → UniConf → Int) (a b : UniConf) : Prop := comparator a b ≤ 0

instance (comparator : UniConf → UniConf → Int) : DecidableRel (notAfter comparator) :=
  fun a b => inferInstanceAs (Decidable (comparator a b ≤ 0))

/-- Modelled from the spec: `defcomparator` (declared in the header as "sorts alphabetically by
full key"): the lexicographic comparison of the segment sequences of the full keys, each segment
compared as keys compare segments, ignoring letter case. -/
def defcomparator (a b : UniConf) : Int :=
  if a.fullkey.folded < b.fullkey.folded then -1
  else if a.fullkey.folded = b.fullkey.folded then 0
  else 1

/-- Modelled from the spec: `_purge()` deletes the buffered keys. -/
def _purge (s : SortedKeyIterBase) : SortedKeyIterBase := { s with count := 0, xkeys := [] }

/-- Modelled from the spec: `_rewind()` sorts the buffer with the comparator and restarts. -/
def _rewind (s : SortedKeyIterBase) : SortedKeyIterBase :=
  { s with
    index := 0
    count := s.xkeys.length
    xkeys := s.xkeys.insertionSort (notAfter s.xcomparator) }

/-- Modelled from the spec: `next()` yields the next key of the buffer. -/
def next (s : SortedKeyIterBase) : Bool × SortedKeyIterBase :=
  if s.index < s.count then
    match s.xkeys.get? s.index with
    | some c => (true, { s with xcurrent := c, index := s.index + 1 })
    | none => (false, s)
  else (false, s)

/-- The loop `for (...; it.next(); ) xkeys.append(new UniConf(it()));` of `populate`, run for at
most `fuel` calls of `it.next()`; `none` when the fuel ends before `it.next()` returns false. -/
def populateLoop : Nat → SortedKeyIterBase → KeyIter → Option (SortedKeyIterBase × KeyIter)
  | 0, _, _ => none
  | fuel + 1, s, it =>
    match it.next with
    | (false, it1) => some (s, it1)
    | (true, it1) => populateLoop fuel { s with xkeys := s.xkeys ++ [it1.cur] } it1

/-- The member template `populate(it)`:
`_purge(); for (it.rewind(); it.next(); ) xkeys.append(new UniConf(it())); _rewind();`. -/
def populate (fuel : Nat) (s : SortedKeyIterBase) (it : KeyIter) :
    Option (SortedKeyIterBase × KeyIter) :=
  match populateLoop fuel s._purge it.rewind with
  | none => none
  | some (s1, it1) => some (s1._rewind, it1)

/-- The handles that successive calls of `next()` yield until it returns false, for at most `fuel`
calls; `none` when the fuel ends first. -/
def yields : Nat → SortedKeyIterBase → Option (List UniConf)
  | 0, _ => none
  | fuel + 1, s =>
    match s.next with
    | (false, _) => some []
    | (true, s1) => (yields fuel s1).map (fun rest => s1.xcurrent :: rest)

end SortedKeyIterBase

/-- The classes `UniConf::SortedIter`, `UniConf::SortedRecursiveIter` and `UniConf::SortedXIter`:
a `SortedKeyIterBase` with the unsorted iterator `it` of the respective kind. -/
structure SortedIterOver where
  base : SortedKeyIterBase
  it : KeyIter

/-- The member `SortedIter::rewind()`: `populate(it)`. -/
def SortedIter.rewind (fuel : Nat) (s : SortedIterOver) : Option SortedIterOver :=
  (s.base.populate fuel s.it).map (fun r => ⟨r.1, r.2⟩)

/-- The member `SortedRecursiveIter::rewind()`: `populate(it)`. -/
def SortedRecursiveIter.rewind (fuel : Nat) (s : SortedIterOver) : Option SortedIterOver :=
  (s.base.populate fuel s.it).map (fun r => ⟨r.1, r.2⟩)

/-- The member `SortedXIter::rewind()`: `populate(it)`. -/
def SortedXIter.rewind (fuel : Nat) (s : SortedIterOver) : Option SortedIterOver :=
  (s.base.populate fuel s.it).map (fun r => ⟨r.1, r.2⟩)

/-! ### Generators -/

/-- Modelled from the spec: a child generator behind the `UniConfGen` interface (`uniconfgen.h`
is not part of the sources), as far as `UniListGen` uses it: its identity, the keys its
`iterator(key)` yields in one pass, whether its `commit()` manages to push its changes (the
member returns `void`) and what its `refresh()` returns. -/
structure UniConfGen where
  id : Nat
  iterator : UniConfKey → List UniConfKey
  commitOk : Bool
  refreshOk : Bool

/-- A call that a generator received. -/
inductive GenCall where
  | commit (gen : Nat)
  | refresh (gen : Nat)
deriving DecidableEq, Repr

/-- The class `UniListGen`: the list `l` of child generators, first the one of highest priority. -/
structure UniListGen where
  l : List UniConfGen

namespace UniListGen

/-- Modelled from the spec: `virtual void commit()` (declared in the header, defined in the
missing `unilistgen.cc`): forwarded to every child in list order.  The member returns nothing;
the value is the log of the calls made. -/
def commit (g : UniListGen) (log : List GenCall) : Unit × List GenCall :=
  ((), g.l.foldl (fun t c => t ++ [GenCall.commit c.id]) log)

/-- Modelled from the spec: the loop of `refresh()`: every child is refreshed and the results
are combined, `result = child.refresh() && result`. -/
def refreshLoop : List UniConfGen → Bool → List GenCall → Bool × List GenCall
  | [], result, log => (result, log)
  | c :: cs, result, log => refreshLoop cs (c.refreshOk && result) (log ++ [GenCall.refresh c.id])

/-- Modelled from the spec: `virtual bool refresh()` (declared in the header, defined in the
missing `unilistgen.cc`): forwarded to every child in list order, also after a failure; true
only if every child returned true. -/
def refresh (g : UniListGen) (log : List GenCall) : Bool × List GenCall :=
  refreshLoop g.l true log

/-- The class `UniListGen::IterIter`: the list `l` of the child iterators (each given by what it
yields in one pass), what is still to come of them, the table `d` of the keys already yielded and
the current key. -/
structure IterIter where
  l : List (List UniConfKey)
  pending : List (List UniConfKey)
  d : List UniConfKey
  cur : UniConfKey
deriving DecidableEq, Repr

namespace IterIter

/-- Modelled from the spec: the constructor `IterIter(geniter, key)` asks every child generator,
in list order, for its iterator over `key`. -/
def make (gens : List UniConfGen) (key : UniConfKey) : IterIter :=
  ⟨gens.map (fun c => c.iterator key), [], [], UniConfKey.EMPTY⟩

/-- Modelled from the spec: `rewind()` rewinds every child iterator and empties the table of the
keys already yielded (the table is per pass). -/
def rewind (s : IterIter) : IterIter := { s with pending := s.l, d := [] }

/-- Modelled from the spec: the next key of one child iterator that is not in the table `d`
(keys compared as keys are, ignoring letter case), and the rest of that iterator. -/
def scan (d : List UniConfKey) : List UniConfKey → Option (UniConfKey × List UniConfKey)
  | [] => none
  | k :: ks => if d.any (fun s => s.sameAs k) then scan d ks else some (k, ks)

/-- Modelled from the spec: the next key not in the table `d`, from the current child iterator or
else from the ones after it. -/
def advance (d : List UniConfKey) :
    List (List UniConfKey) → Option (UniConfKey × List (List UniConfKey))
  | [] => none
  | it :: rest =>
    match scan d it with
    | some (k, ks) => some (k, ks :: rest)
    | none => advance d rest

/-- Modelled from the spec: `next()` moves to the next key that no earlier call of this pass has
yielded and records it in the table; false when every child iterator is exhausted. -/
def next (s : IterIter) : Bool × IterIter :=
  match advance s.d s.pending with
  | none => (false, { s with pending := [] })
  | some (k, p) => (true, { s with cur := k, d := k :: s.d, pending := p })

/-- Modelled from the spec: the member `key()`: the current key. -/
def key (s : IterIter) : UniConfKey := s.cur

/-- The keys that successive calls of `next()` yield until it returns false, for at most `fuel`
calls; `none` when the fuel ends first. -/
def yields : Nat → IterIter → Option (List UniConfKey)
  | 0, _ => none
  | fuel + 1, s =>
    match s.next with
    | (false, _) => some []
    | (true, s1) => (yields fuel s1).map (fun rest => s1.key :: rest)

end IterIter

/-- Modelled from the spec: `iterator(key)`: a new `IterIter` over the child generators. -/
def iterator (g : UniListGen) (key : UniConfKey) : IterIter := IterIter.make g.l key

/-- The keys of the child generators below `key`, children visited in list order. -/
def childKeys (g : UniListGen) (key : UniConfKey) : List UniConfKey :=
  (g.l.map (fun c => c.iterator key)).flatten

end UniListGen

/-- Modelled from the spec: the class `UniNullGen` (`uninullgen.h` is not part of the sources),
a generator without any state. -/
structure UniNullGen where
deriving DecidableEq, Repr

namespace UniNullGen

/-- Modelled from the spec: `get` always returns absent. -/
def get (_g : UniNullGen) (_key : UniConfKey) : WvString := WvString.null

/-- Modelled from the spec: `exists` is always false. -/
def «exists» (_g : UniNullGen) (_key : UniConfKey) : Bool := false

/-- Modelled from the spec: `haschildren` is always false. -/
def haschildren (_g : UniNullGen) (_key : UniConfKey) : Bool := false

/-- Modelled from the spec: `set` always fails and stores nothing. -/
def set (g : UniNullGen) (_key : UniConfKey) (_value : WvString) : Bool × UniNullGen := (false, g)

/-- The generator after a sequence of `set` calls, each applied to the state the one before
left. -/
def afterSets (g : UniNullGen) : List (UniConfKey × WvString) → UniNullGen
  | [] => g
  | (k, v) :: rest => afterSets (g.set k v).2 rest

/-- The function `creator` of `uninullgen.cc`, registered for the moniker `"null"`:
`return new UniNullGen();`, whatever the moniker argument, object and user data are. -/
def creator (_moniker : WvString) (_obj : Option Nat) (_userdata : Option Nat) : UniNullGen :=
  UniNullGen.mk

end UniNullGen

/-! ### Example registries -/

/-- A heap with one root object, writable and empty. -/
def emptyWorld : World := ⟨[⟨true, [], [], []⟩]⟩

/-- A heap with one root object, writable and empty, in which the watch
`(root key, INFINITE, callback 7, userdata 0)` is registered. -/
def watchedWorld : World := ⟨[⟨true, [], [⟨UniConfKey.EMPTY, UniConfDepth.INFINITE, 7, 0⟩], []⟩]⟩

/-- A heap with one root object that stores `eth0/ip`, `eth0/mtu` and `eth1/ip`. -/
def netWorld : World :=
  ⟨[⟨true, [(⟨["eth0", "ip"]⟩, "10.0.0.1"), (⟨["eth0", "mtu"]⟩, "1500"),
      (⟨["eth1", "ip"]⟩, "10.0.0.2")], [], []⟩]⟩

/-! ### Example iterators -/

/-- A sorted iterator with the default comparator that still buffers the key `old` of an earlier
pass, over an unsorted iterator that now yields the handles `b`, `Zebra`, `a/z`, `apple` and
again `b`. -/
def defaultSorted : SortedIterOver :=
  ⟨⟨UniConf.ofRoot 0, UniConf.null, SortedKeyIterBase.defcomparator, 1, 1, [⟨some 0, ⟨["old"]⟩⟩]⟩,
    ⟨[⟨some 0, ⟨["b"]⟩⟩, ⟨some 0, ⟨["Zebra"]⟩⟩, ⟨some 0, ⟨["a", "z"]⟩⟩, ⟨some 0, ⟨["apple"]⟩⟩,
      ⟨some 0, ⟨["b"]⟩⟩], [], UniConf.null⟩⟩

/-! ### Merged order and example generators -/

/-- The keys of `ks` that are not in `seen`, each once, in the order of their first
occurrence; keys are compared as keys are, ignoring letter case. -/
def firstOccurrences (seen : List UniConfKey) : List UniConfKey → List UniConfKey
  | [] => []
  | k :: ks =>
    if seen.any (fun s => s.sameAs k) then firstOccurrences seen ks
    else k :: firstOccurrences (k :: seen) ks

/-- The place of the first key of a list that equals `k`, keys compared ignoring letter case
(the length of the list when there is none). -/
def firstPlace (k : UniConfKey) : List UniConfKey → Nat
  | [] => 0
  | x :: xs => if x.sameAs k then 0 else firstPlace k xs + 1

/-- The list generator over a generator with the children `a`, `b` and one with the children
`b`, `c`. -/
def mergeExample : UniListGen :=
  ⟨[⟨0, fun _ => [⟨["a"]⟩, ⟨["b"]⟩], true, true⟩, ⟨1, fun _ => [⟨["b"]⟩, ⟨["c"]⟩], true, true⟩]⟩

/-- The list generator over a generator with the children `a`, `B` and one with the children
`b`, `A`, `c`. -/
def mergeCaseExample : UniListGen :=
  ⟨[⟨0, fun _ => [⟨["a"]⟩, ⟨["B"]⟩], true, true⟩,
    ⟨1, fun _ => [⟨["b"]⟩, ⟨["A"]⟩, ⟨["c"]⟩], true, true⟩]⟩

/-- The test `strcasecmp(a, b) == 0` of the C library: the two strings are the same once the
letters `A`..`Z` are lowered. -/
def strcasecmpIsZero (a b : String) : Bool :=
  a.data.map Char.toLower == b.data.map Char.toLower

/-- The test `!value || !value[0]` of `WvConfigSection::set`: the string is null, or its first
character is the terminator. -/
def WvString.isBlank : WvString → Bool
  | none => true
  | some s => s.data.headD (Char.ofNat 0) == Char.ofNat 0

/-- Modelled from the spec: the class `WvConfigEntry` (`wvconf.h` is not part of the sources), as
far as `cfgsection.cc` uses it: the fields `name` and `value`. -/
structure WvConfigEntry where
  name : String
  value : WvString
deriving DecidableEq, Repr

/-- Modelled from the spec: `WvConfigEntry::set(value)` stores the value and leaves the name. -/
def WvConfigEntry.set (e : WvConfigEntry) (value : WvString) : WvConfigEntry :=
  { e with value := value }

/-- The class `WvConfigSection`: a `WvConfigEntryList` with a name.  A pointer to an entry of
the list is its position. -/
structure WvConfigSection where
  name : String
  entries : List WvConfigEntry
deriving DecidableEq, Repr

namespace WvConfigSection

/-- The loop of `operator[]` over the entries: the position of the first entry with
`strcasecmp(name, ename) == 0`, or `none` (the `NULL` pointer). -/
def find (ename : String) : List WvConfigEntry → Option Nat
  | [] => none
  | e :: rest =>
    if strcasecmpIsZero e.name ename then some 0 else (find ename rest).map (fun i => i + 1)

/-- The member `operator[] (ename)`. -/
def index (s : WvConfigSection) (ename : String) : Option Nat := find ename s.entries

/-- The member `get(entry, def_val)`: `e ? (char *)e->value : def_val`. -/
def get (s : WvConfigSection) (entry : String) (def_val : WvString) : WvString :=
  match s.index entry with
  | some i =>
    match s.entries.get? i with
    | some e => e.value
    | none => def_val
  | none => def_val

/-- The member `set(entry, value)`: a blank value unlinks the entry found, if any; another value
is stored in the entry found, or appended as a new entry. -/
def set (s : WvConfigSection) (entry : String) (value : WvString) : WvConfigSection :=
  if WvString.isBlank value then
    match s.index entry with
    | some i => { s with entries := s.entries.eraseIdx i }
    | none => s
  else
    match s.index entry with
    | some i =>
      match s.entries.get? i with
      | some e => { s with entries := s.entries.set i (e.set value) }
      | none => s
    | none => { s with entries := s.entries ++ [⟨entry, value⟩] }

/-- No two entries have names that are equal ignoring letter case. -/
def NamesUnique (entries : List WvConfigEntry) : Prop :=
  entries.Pairwise (fun a b => strcasecmpIsZero a.name b.name = false)

end WvConfigSection

/-- A section with the two entries `Key` and `KEY`, whose names are equal ignoring case. -/
def doubledSection : WvConfigSection := ⟨"s", [⟨"Key", some "1"⟩, ⟨"KEY", some "2"⟩]⟩

/-- A section with the entries `Host` and `Port`. -/
def plainSection : WvConfigSection := ⟨"s", [⟨"Host", some "a"⟩, ⟨"Port", some "80"⟩]⟩

/-! ### Byte buffers (`utils/wvbuffer.cc`) -/

/-- A `WvString` at the level of its character array: `none` is the null string, otherwise the
array of `unsigned char` values that `cstr()` and `edit()` point to, terminator included. -/
abbrev WvStringArray := Option (List Nat)

/-- The characters of a string before its terminator, what `strcmp` compares; none for the null
string. -/
def WvStringArray.text : WvStringArray → List Nat
  | none => []
  | some a => a.takeWhile (fun c => c != 0)

/-- Modelled from the spec: `WvString::len()` (`wvstring.h` is not part of the sources): the
number of characters before the terminator, 0 for the null string. -/
def WvStringArray.len (s : WvStringArray) : Nat := (WvStringArray.text s).length

/-- Modelled from the spec: `WvString::cstr()`: the character array, nothing for the null
string. -/
def WvStringArray.cstr : WvStringArray → List Nat
  | none => []
  | some a => a

/-- Modelled from the spec: the class `WvBufferBase<unsigned char>` (`wvbuffer.h` is not part of
the sources; the spec names the byte buffers only as an external utility): the buffered bytes, as
the contiguous chunks of memory that hold them, front first. -/
structure WvBuffer where
  chunks : List (List Nat)
deriving DecidableEq, Repr

namespace WvBuffer

/-- Modelled from the spec: the buffered bytes in order, front first. -/
def contents (b : WvBuffer) : List Nat := b.chunks.flatten

/-- Modelled from the spec: `used()`, the number of buffered bytes. -/
def used (b : WvBuffer) : Nat := b.contents.length

/-- Modelled from the spec: `put(data, count)` appends the first `count` bytes at `data`. -/
def put (b : WvBuffer) (data : List Nat) (count : Nat) : WvBuffer :=
  if count = 0 then b else ⟨b.chunks ++ [data.take count]⟩

/-- Modelled from the spec: the chunks that are left when the first `count` bytes are taken
away. -/
def skipChunks : List (List Nat) → Nat → List (List Nat)
  | [], _ => []
  | c :: cs, count =>
    if count = 0 then c :: cs
    else if c.length ≤ count then skipChunks cs (count - c.length)
    else c.drop count :: cs

/-- Modelled from the spec: `move(buf, count)` copies the first `count` bytes out and removes
them from the buffer; the value is the bytes copied and the buffer afterwards. -/
def move (b : WvBuffer) (count : Nat) : List Nat × WvBuffer :=
  (b.contents.take count, ⟨skipChunks b.chunks count⟩)

/-- Modelled from the spec: the bytes from `offset` to the end of the chunk that holds the byte
at `offset`. -/
def peekChunk : List (List Nat) → Nat → List Nat
  | [], _ => []
  | c :: cs, offset => if offset < c.length then c.drop offset else peekChunk cs (offset - c.length)

/-- Modelled from the spec: `optpeekable(offset)`, the number of bytes that can be peeked at
`offset` in one piece. -/
def optpeekable (b : WvBuffer) (offset : Nat) : Nat := (peekChunk b.chunks offset).length

/-- Modelled from the spec: `peek(offset, count)`, the `count` bytes at `offset`, which must lie
in one chunk. -/
def peek (b : WvBuffer) (offset count : Nat) : List Nat := (peekChunk b.chunks offset).take count

/-- The member `putstr(str)`: `put((const unsigned char*)str.cstr(), str.len());`. -/
def putstr (b : WvBuffer) (str : WvStringArray) : WvBuffer :=
  b.put (WvStringArray.cstr str) (WvStringArray.len str)

/-- The member `getstr()`: a string of size `used() + 1` (its bytes are `junk` until written),
into which `move(str, len)` copies the buffer contents and whose byte `len` is set to 0.  The
value is the string and the buffer afterwards. -/
def getstr (b : WvBuffer) (junk : Nat) : WvStringArray × WvBuffer :=
  let len := b.used
  let result := List.replicate (len + 1) junk
  let moved := b.move len
  let str := moved.1 ++ result.drop moved.1.length
  (some (str.set len 0), moved.2)

/-- The loop `for (c = 0; c < numbytes; ++c) if (chlist[c] == ch) break;` over the bytes of the
list that are still to be compared: the value of `c` after it. -/
def findByte (ch : Nat) : List Nat → Nat → Nat
  | [], c => c
  | x :: xs, c => if x = ch then c else findByte ch xs (c + 1)

/-- The loop `for (i = 0; i < len; ++i)` of `_match` over the bytes `str[i], ...` of one chunk:
`some i` for `return offset + i` at the first byte that does not `continue`, `none` when the loop
ends. -/
def scanChunk (chlist : List Nat) (numbytes : Nat) (reverse : Bool) : List Nat → Nat → Option Nat
  | [], _ => none
  | ch :: rest, i =>
    if (if reverse then findByte ch (chlist.take numbytes) 0 == numbytes
        else findByte ch (chlist.take numbytes) 0 != numbytes) then
      scanChunk chlist numbytes reverse rest (i + 1)
    else some i

/-- The loop `while (offset < avail)` of `_match`, for at most `fuel` rounds; `none` when the
fuel ends before the function returns. -/
def matchLoop (b : WvBuffer) (chlist : List Nat) (numbytes : Nat) (reverse : Bool) :
    Nat → Nat → Option Nat
  | 0, _ => none
  | fuel + 1, offset =>
    if offset < b.used then
      match scanChunk chlist numbytes reverse (b.peek offset (b.optpeekable offset)) 0 with
      | some i => some (offset + i)
      | none => matchLoop b chlist numbytes reverse fuel (offset + b.optpeekable offset)
    else some (if reverse then offset else 0)

/-- The member `_match(bytelist, numbytes, reverse)`. -/
def _match (b : WvBuffer) (bytelist : List Nat) (numbytes : Nat) (reverse : Bool) : Option Nat :=
  matchLoop b bytelist numbytes reverse (b.used + 1) 0

end WvBuffer

/-- Whether the scan of `_match` goes on past the byte `ch`: with `reverse = false` when the
byte is in the list, with `reverse = true` when it is not. -/
def WvBuffer.passes (bytelist : List Nat) (reverse : Bool) (ch : Nat) : Bool :=
  if reverse then !bytelist.contains ch else bytelist.contains ch

/-! ### The D-Bus server (`dbus/wvdbusserver.cc`) -/

/-- An argument of a D-Bus message: a string or a `uint32_t`. -/
inductive DBusArg where
  | str (s : String)
  | uint32 (n : Nat)
deriving DecidableEq, Repr

/-- Modelled from the spec: the class `WvDBusMsg` (`wvdbusmsg.h` is not part of the sources; the
spec leaves the message bus to external collaborators), as far as the server reads it: serial,
destination, path, member, arguments, `is_reply()` and `get_replyserial()`. -/
structure WvDBusMsg where
  serial : Nat
  dest : WvString
  path : WvString
  member : WvString
  args : List DBusArg
  isReply : Bool
  replyserial : Nat
deriving DecidableEq, Repr

namespace WvDBusMsg

/-- Modelled from the spec: `reply()`, a new reply message to this message. -/
def reply (msg : WvDBusMsg) : WvDBusMsg := ⟨0, none, none, none, [], true, msg.serial⟩

/-- Modelled from the spec: `append(arg)` adds an argument. -/
def append (msg : WvDBusMsg) (a : DBusArg) : WvDBusMsg := { msg with args := msg.args ++ [a] }

/-- Modelled from the spec: the first `getnext()` of a `WvDBusMsg::Iter` over the message, as a
string; the null string when there is no string argument. -/
def getnext (msg : WvDBusMsg) : WvString :=
  match msg.args with
  | DBusArg.str s :: _ => some s
  | _ => none

end WvDBusMsg

/-- Modelled from the spec: the class `WvDBusConn` (`wvdbusconn.h` is not part of the sources),
as far as the server uses it: the registered `name`, the unique name, the serial that the
connection gives to the next message sent on it, and the messages sent on it so far. -/
structure WvDBusConn where
  name : WvString
  uniquename : String
  client_serial : Nat
  outbox : List WvDBusMsg
deriving DecidableEq, Repr

/-- Modelled from the spec: `WvDBusConn::send(msg)` hands the message to the connection, which
numbers it with its own next serial (a `uint32_t` counter per connection that skips 0, as in
libdbus), and returns that serial. -/
def WvDBusConn.send (c : WvDBusConn) (msg : WvDBusMsg) : Nat × WvDBusConn :=
  (c.client_serial,
    { c with
      client_serial :=
        if (c.client_serial + 1) % 4294967296 = 0 then 1 else (c.client_serial + 1) % 4294967296
      outbox := c.outbox ++ [{ msg with serial := c.client_serial }] })

/-- The class `WvDBusReplySerial`: a serial and the connection that expects the reply to it. -/
structure WvDBusReplySerial where
  serial : Nat
  conn : Nat
deriving DecidableEq, Repr

/-- The class `WvDBusServer`: the heap of its connection objects (a pointer to a connection is
its position), the dictionary `cdict` of registered connections and the dictionary `rsdict` of
expected replies, both in the order of insertion. -/
structure WvDBusServer where
  conns : List WvDBusConn
  cdict : List Nat
  rsdict : List WvDBusReplySerial
deriving DecidableEq, Repr

/-- What a callback of the server does: it returns a boolean in a new state, or an `assert` of
the given source line fails. -/
inductive ServerResult where
  | returned (handled : Bool) (s : WvDBusServer)
  | assertionFailed (line : Nat)
deriving DecidableEq, Repr

namespace WvDBusServer

/-- The field `name` of the connection at `p`. -/
def nameOf (s : WvDBusServer) (p : Nat) : WvString :=
  match s.conns.get? p with
  | some c => c.name
  | none => none

/-- The unique name of the connection at `p`. -/
def uniquenameOf (s : WvDBusServer) (p : Nat) : String :=
  match s.conns.get? p with
  | some c => c.uniquename
  | none => ""

/-- The assignment `conn.name = name`. -/
def setName (s : WvDBusServer) (p : Nat) (name : WvString) : WvDBusServer :=
  match s.conns.get? p with
  | some c => { s with conns := s.conns.set p { c with name := name } }
  | none => s

/-- The call `conn.send(msg)` on the connection at `p`: the serial and the state afterwards. -/
def send (s : WvDBusServer) (p : Nat) (msg : WvDBusMsg) : Nat × WvDBusServer :=
  match s.conns.get? p with
  | some c => ((c.send msg).1, { s with conns := s.conns.set p (c.send msg).2 })
  | none => (0, s)

/-- Modelled from the spec: the lookup `cdict[key]` in the dictionary keyed by the field `name`
(`wvhashtable.h` is not part of the sources): the first registered connection whose name is the
key, or `NULL`. -/
def cdictFind (s : WvDBusServer) (key : WvString) : Option Nat :=
  s.cdict.find? (fun p => s.nameOf p == key)

/-- Modelled from the spec: the lookup `rsdict[serial]` in the dictionary keyed by the serial:
the first entry with that serial, or `NULL`. -/
def rsdictFind (s : WvDBusServer) (serial : Nat) : Option WvDBusReplySerial :=
  s.rsdict.find? (fun e => e.serial == serial)

/-- The member `register_conn(conn)`: `assert(!cdict[conn->name]); cdict.add(conn, false);`. -/
def register_conn (s : WvDBusServer) (conn : Nat) : Option WvDBusServer :=
  match s.cdictFind (s.nameOf conn) with
  | some _ => none
  | none => some { s with cdict := s.cdict ++ [conn] }

/-- The member `do_server_msg(conn, msg)`. -/
def do_server_msg (s : WvDBusServer) (conn : Nat) (msg : WvDBusMsg) : ServerResult :=
  if msg.dest != some "org.freedesktop.DBus" then ServerResult.returned false s
  else if msg.path != some "/org/freedesktop/DBus" then ServerResult.returned false s
  else if msg.member == some "Hello" then
    ServerResult.returned true
      (s.send conn (msg.reply.append (DBusArg.str (s.uniquenameOf conn)))).2
  else if msg.member == some "RequestName" then
    match (s.setName conn msg.getnext).register_conn conn with
    | none => ServerResult.assertionFailed 71
    | some s2 =>
      if s2.cdictFind msg.getnext == some conn then
        ServerResult.returned true (s2.send conn (msg.reply.append (DBusArg.uint32 1))).2
      else ServerResult.assertionFailed 108
  else if msg.member == some "ReleaseName" then
    ServerResult.returned true
      ((s.setName conn (some "")).send conn (msg.reply.append (DBusArg.uint32 1))).2
  else ServerResult.returned false s

/-- The member `do_bridge_msg(conn, msg)`.  The test `!!msg.get_dest()` is read as its comment
says: the destination is not blank, neither null nor empty. -/
def do_bridge_msg (s : WvDBusServer) (conn : Nat) (msg : WvDBusMsg) : Bool × WvDBusServer :=
  if msg.isReply then
    match s.rsdictFind msg.replyserial with
    | some e => (true, { (s.send e.conn msg).2 with rsdict := s.rsdict.erase e })
    | none => (false, s)
  else if !WvString.isBlank msg.dest then
    match s.cdictFind msg.dest with
    | some dconn =>
      (true, { (s.send dconn msg).2 with rsdict := s.rsdict ++ [⟨(s.send dconn msg).1, conn⟩] })
    | none => (true, s)
  else (false, s)

/-- The server handles the messages of a list, each from its connection, with `do_server_msg`,
until one makes an assertion fail. -/
def serve (s : WvDBusServer) : List (Nat × WvDBusMsg) → ServerResult
  | [] => ServerResult.returned true s
  | (conn, msg) :: rest =>
    match s.do_server_msg conn msg with
    | ServerResult.returned _ s1 => serve s1 rest
    | ServerResult.assertionFailed line => ServerResult.assertionFailed line

end WvDBusServer

/-- The method call `RequestName(name)` to the bus, with serial 1. -/
def requestName (name : String) : WvDBusMsg :=
  ⟨1, some "org.freedesktop.DBus", some "/org/freedesktop/DBus", some "RequestName",
    [DBusArg.str name, DBusArg.uint32 0], false, 0⟩

/-- A method call to the destination `dest`. -/
def callTo (dest : String) : WvDBusMsg :=
  ⟨1, some dest, some "/obj", some "Ping", [], false, 0⟩

/-- A reply that carries the reply serial `serial`. -/
def replyTo (serial : Nat) : WvDBusMsg := ⟨1, none, none, none, [], true, serial⟩

/-- A server with two fresh connections `:1` and `:2` and empty dictionaries. -/
def twoClients : WvDBusServer :=
  ⟨[⟨none, ":1", 1, []⟩, ⟨none, ":2", 1, []⟩], [], []⟩

/-- A server with the callers `:1` and `:2` and the services `:3` (registered as `svc.one`) and
`:4` (registered as `svc.two`); each service connection is about to give serial 2. -/
def twoServices : WvDBusServer :=
  ⟨[⟨none, ":1", 2, []⟩, ⟨none, ":2", 2, []⟩,
    ⟨some "svc.one", ":3", 2, []⟩, ⟨some "svc.two", ":4", 2, []⟩], [2, 3], []⟩

/-! ## Theorems -/

/-- C1: for every handle `h` and key `k`, `h[k].parent()` has the root object of `h` and its full
key is the full key of `h[k]` without its last segment; the parent of a handle with the empty full
key (whatever its root pointer `p`) has the empty full key again, so `parent()` is idempotent at
the root. -/
theorem parent_of_index (h : UniConf) (k : UniConfKey) (p : Option Nat) :
    ((h.index k).parent.rootobj = h.rootobj ∧
      (h.index k).parent.fullkey.segments = (h.index k).fullkey.segments.dropLast) ∧
    ((UniConf.mk p UniConfKey.EMPTY).parent.fullkey = UniConfKey.EMPTY ∧
      (UniConf.mk p UniConfKey.EMPTY).parent = UniConf.mk p UniConfKey.EMPTY ∧
      (UniConf.mk p UniConfKey.EMPTY).parent.parent = (UniConf.mk p UniConfKey.EMPTY).parent) :=
  ⟨⟨rfl, rfl⟩, rfl, rfl, rfl⟩

/-- C2: child navigation is key concatenation: `h[k]` has the root object of `h`, its full key is
the segments of `h.fullkey()` followed by those of `k`, and the call leaves both the receiver and
the heap of roots as they were. -/
theorem index_is_concat (h : UniConf) (k : UniConfKey) (w : World) :
    (h.indexCall k w).1.rootobj = h.rootobj ∧
    (h.indexCall k w).1.fullkey.segments = h.fullkey.segments ++ k.segments ∧
    (h.indexCall k w).2.1 = h ∧ (h.indexCall k w).2.2 = w :=
  ⟨rfl, rfl, rfl, rfl⟩

/-- C3: `key()` is the path relative to the parent: for a handle `h` whose full key is not empty,
`h.parent()[h.key()]` has the root and the full key of `h`. -/
theorem parent_index_key (h : UniConf) (hne : h.fullkey ≠ UniConfKey.EMPTY) :
    (h.parent.index h.key).rootobj = h.rootobj ∧ (h.parent.index h.key).fullkey = h.fullkey := by
  obtain ⟨p, ⟨segs⟩⟩ := h
  refine ⟨rfl, ?_⟩
  simp only [UniConf.fullkey, UniConf.index, UniConf.parent, UniConf.key, UniConfKey.concat,
    UniConfKey.removelast, UniConfKey.last, UniConfKey.mk.injEq]
  rw [List.dropLast_eq_take]
  exact List.take_append_drop _ _

/-- Witness of C3 at the handle `eth0/ip` of root object 0. -/
theorem parent_index_key_witness :
    (UniConf.mk (some 0) ⟨["eth0", "ip"]⟩).fullkey ≠ UniConfKey.EMPTY ∧
    ((UniConf.mk (some 0) ⟨["eth0", "ip"]⟩).parent.index
        (UniConf.mk (some 0) ⟨["eth0", "ip"]⟩).key).rootobj
      = (UniConf.mk (some 0) ⟨["eth0", "ip"]⟩).rootobj ∧
    ((UniConf.mk (some 0) ⟨["eth0", "ip"]⟩).parent.index
        (UniConf.mk (some 0) ⟨["eth0", "ip"]⟩).key).fullkey
      = (UniConf.mk (some 0) ⟨["eth0", "ip"]⟩).fullkey :=
  ⟨by decide, parent_index_key _ (by decide)⟩

/-! ### Removal and watches -/

theorem UniConfKey.covers_trans {a b c : UniConfKey} (hab : a.covers b = true)
    (hbc : b.covers c = true) : a.covers c = true := by
  simp only [UniConfKey.covers, List.isPrefixOf_iff_prefix] at *
  exact hab.trans hbc

theorem UniConfRoot.store_null_exists (entries : List (UniConfKey × String))
    (key k : UniConfKey) (hk : key.covers k = true) :
    (UniConfRoot.store entries key none).any (fun e => k.covers e.1) = false := by
  rw [List.any_eq_false]
  intro e he hke
  simp only [UniConfRoot.store, List.mem_filter, Bool.not_eq_true', decide_eq_true_eq] at he
  have := UniConfKey.covers_trans hk hke
  rw [he.2] at this
  exact Bool.noConfusion this

/-- C4: `h.remove()` returns the boolean and leaves the heap of roots in the state of
`h.set(WvString::null)`, for every implementation of `set` and in particular for the modelled
one; and when the modelled `set` succeeds, neither the key of `h` nor any key below it exists
afterwards. -/
theorem remove_is_set_null (setfn : UniConf → WvString → World → Bool × World)
    (h : UniConf) (w : World) :
    UniConf.removeWith setfn h w = setfn h WvString.null w ∧
    h.remove w = h.set WvString.null w ∧
    (∀ k : UniConfKey, (h.remove w).1 = true → h.fullkey.covers k = true →
      (UniConf.mk h.xroot k).exists (h.remove w).2 = false) := by
  refine ⟨rfl, rfl, ?_⟩
  intro k hok hk
  obtain ⟨xroot, xfullkey⟩ := h
  simp only [UniConf.remove, UniConf.removeWith, UniConf.set, WvString.null] at hok ⊢
  cases xroot with
  | none => simp at hok
  | some p =>
    simp only [UniConf.exists, World.deref, List.get?_eq_getElem?] at hok ⊢
    cases hget : w.roots[p]? with
    | none => simp [hget] at hok
    | some r =>
      have hlt : p < w.roots.length := (List.getElem?_eq_some.mp hget).1
      simp only [hget, UniConfRoot.set] at hok ⊢
      cases hw : r.writable with
      | false => simp [hw] at hok
      | true =>
        simp only [hw, if_true, List.getElem?_set_self hlt, UniConfRoot.exists]
        exact UniConfRoot.store_null_exists _ _ _ hk

/-- Witness of C4: removing `eth0` from the example registry succeeds and `eth0/ip` is gone. -/
theorem remove_is_set_null_witness :
    ((UniConf.mk (some 0) ⟨["eth0"]⟩).remove netWorld).1 = true ∧
    (UniConf.mk (some 0) ⟨["eth0"]⟩).fullkey.covers ⟨["eth0", "ip"]⟩ = true ∧
    (UniConf.mk (some 0) ⟨["eth0", "ip"]⟩).exists
      ((UniConf.mk (some 0) ⟨["eth0"]⟩).remove netWorld).2 = false :=
  ⟨by decide, by decide,
    (remove_is_set_null UniConf.set (UniConf.mk (some 0) ⟨["eth0"]⟩) netWorld).2.2
      ⟨["eth0", "ip"]⟩ (by decide) (by decide)⟩

/-- The member `addwatch` changes nothing that a later call can observe: whatever `set` does, it
does the same with and without the registration. -/
theorem addwatch_unobservable (setfn : UniConf → WvString → World → Bool × World)
    (h g : UniConf) (depth : UniConfDepth) (callback userdata : Nat) (v : WvString) (w : World) :
    setfn g v (h.addwatch depth callback userdata w) = setfn g v w := rfl

/-- C5, evaluated on the code: after `addwatch(INFINITE, callback 7, userdata 0)` on the root
handle of a writable root, no watch is registered, and the successful `set("1")` of the key `x`,
which the depth specification covers, calls no callback; the same `set` in a heap where that watch
is registered calls callback 7. -/
theorem addwatch_then_set_calls_nothing :
    UniConfDepth.INFINITE.region (UniConf.ofRoot 0).fullkey
      ((UniConf.ofRoot 0).index ⟨["x"]⟩).fullkey = true ∧
    ((UniConf.ofRoot 0).addwatch UniConfDepth.INFINITE 7 0 emptyWorld).roots.map
      (fun r => r.watches) = [[]] ∧
    (((UniConf.ofRoot 0).index ⟨["x"]⟩).set (some "1")
      ((UniConf.ofRoot 0).addwatch UniConfDepth.INFINITE 7 0 emptyWorld)).1 = true ∧
    (((UniConf.ofRoot 0).index ⟨["x"]⟩).set (some "1")
      ((UniConf.ofRoot 0).addwatch UniConfDepth.INFINITE 7 0 emptyWorld)).2.roots.map
      (fun r => (r.entries, r.fired)) = [([(⟨["x"]⟩, "1")], [])] ∧
    (((UniConf.ofRoot 0).index ⟨["x"]⟩).set (some "1") watchedWorld).2.roots.map
      (fun r => r.fired) = [[⟨7, 0, ⟨["x"]⟩⟩]] := by
  decide

/-! ### Sorted iterators -/

theorem KeyIter.next_nil (it : KeyIter) (hp : it.pending = []) : it.next = (false, it) := by
  simp only [KeyIter.next, hp]

theorem KeyIter.next_cons (it : KeyIter) (c : UniConf) (rest : List UniConf)
    (hp : it.pending = c :: rest) :
    it.next = (true, { it with xcurrent := c, pending := rest }) := by
  simp only [KeyIter.next, hp]

theorem SortedKeyIterBase.populateLoop_succ (fuel : Nat) (s : SortedKeyIterBase) (it : KeyIter) :
    SortedKeyIterBase.populateLoop (fuel + 1) s it =
      match it.next with
      | (false, it1) => some (s, it1)
      | (true, it1) =>
        SortedKeyIterBase.populateLoop fuel { s with xkeys := s.xkeys ++ [it1.cur] } it1 := rfl

theorem SortedKeyIterBase.populateLoop_all (pend : List UniConf) :
    ∀ (extra : Nat) (s : SortedKeyIterBase) (it : KeyIter), it.pending = pend →
      ∃ it1, SortedKeyIterBase.populateLoop (extra + pend.length + 1) s it
        = some ({ s with xkeys := s.xkeys ++ pend }, it1) := by
  induction pend with
  | nil =>
    intro extra s it hp
    refine ⟨it, ?_⟩
    rw [SortedKeyIterBase.populateLoop_succ, KeyIter.next_nil it hp]
    simp
  | cons c rest ih =>
    intro extra s it hp
    obtain ⟨it1, h1⟩ := ih extra { s with xkeys := s.xkeys ++ [c] }
      { it with xcurrent := c, pending := rest } rfl
    refine ⟨it1, ?_⟩
    have hfuel : extra + (c :: rest).length + 1 = (extra + rest.length + 1) + 1 := by
      simp only [List.length_cons]; omega
    rw [hfuel, SortedKeyIterBase.populateLoop_succ, KeyIter.next_cons it c rest hp]
    simp only [KeyIter.cur]
    rw [h1]
    simp

theorem SortedKeyIterBase.sorted_yields_succ (fuel : Nat) (s : SortedKeyIterBase) :
    SortedKeyIterBase.yields (fuel + 1) s =
      match s.next with
      | (false, _) => some []
      | (true, s1) => (SortedKeyIterBase.yields fuel s1).map (fun rest => s1.xcurrent :: rest) :=
  rfl

theorem SortedKeyIterBase.next_end (s : SortedKeyIterBase) (h : s.count ≤ s.index) :
    s.next = (false, s) := by
  simp only [SortedKeyIterBase.next, Nat.not_lt.mpr h, if_false]

theorem SortedKeyIterBase.next_at (s : SortedKeyIterBase) (h : s.index < s.count)
    (hc : s.count = s.xkeys.length) :
    s.next = (true, { s with xcurrent := s.xkeys[s.index], index := s.index + 1 }) := by
  have hget : s.xkeys.get? s.index = some s.xkeys[s.index] := by
    rw [List.get?_eq_getElem?]; exact List.getElem?_eq_getElem (hc ▸ h)
  simp only [SortedKeyIterBase.next, h, if_true, hget]

theorem SortedKeyIterBase.yields_rest :
    ∀ (n extra : Nat) (s : SortedKeyIterBase), s.count = s.xkeys.length → s.index + n = s.count →
      SortedKeyIterBase.yields (extra + n + 1) s = some (s.xkeys.drop s.index) := by
  intro n
  induction n with
  | zero =>
    intro extra s hc hi
    have h0 : s.xkeys.length ≤ s.index := by omega
    rw [SortedKeyIterBase.sorted_yields_succ, SortedKeyIterBase.next_end s (by omega)]
    simp [List.drop_eq_nil_of_le h0]
  | succ n ih =>
    intro extra s hc hi
    have hlt : s.index < s.xkeys.length := by omega
    have hfuel : extra + (n + 1) + 1 = (extra + n + 1) + 1 := by omega
    have hstep := ih extra { s with xcurrent := s.xkeys[s.index], index := s.index + 1 } hc
      (by simp only; omega)
    rw [hfuel, SortedKeyIterBase.sorted_yields_succ, SortedKeyIterBase.next_at s (by omega) hc]
    simp only
    rw [hstep]
    simp only [Option.map_some', Option.some.injEq]
    exact (List.drop_eq_getElem_cons hlt).symm

theorem SortedKeyIterBase.populate_sorts (extra : Nat) (s : SortedKeyIterBase) (it : KeyIter) :
    ∃ it1, SortedKeyIterBase.populate (extra + it.all.length + 1) s it
      = some ({ s with
          index := 0
          count := it.all.length
          xkeys := it.all.insertionSort (SortedKeyIterBase.notAfter s.xcomparator) }, it1) := by
  obtain ⟨it1, h1⟩ := SortedKeyIterBase.populateLoop_all it.all extra s._purge it.rewind rfl
  refine ⟨it1, ?_⟩
  have h2 : SortedKeyIterBase.populate (extra + it.all.length + 1) s it
      = some (({ s._purge with xkeys := s._purge.xkeys ++ it.all } : SortedKeyIterBase)._rewind,
          it1) := by
    simp only [SortedKeyIterBase.populate]
    rw [h1]
  rw [h2]
  simp [SortedKeyIterBase._rewind, SortedKeyIterBase._purge]

theorem SortedKeyIterBase.defcomparator_le (a b : UniConf) :
    SortedKeyIterBase.notAfter SortedKeyIterBase.defcomparator a b ↔
      a.fullkey.folded ≤ b.fullkey.folded := by
  unfold SortedKeyIterBase.notAfter SortedKeyIterBase.defcomparator
  by_cases hlt : a.fullkey.folded < b.fullkey.folded
  · simp [hlt, le_of_lt hlt]
  · by_cases heq : a.fullkey.folded = b.fullkey.folded
    · simp [heq]
    · simp only [hlt, heq, if_false]
      constructor
      · intro h; exact absurd h (by decide)
      · intro h; exact absurd (lt_of_le_of_ne h heq) hlt

theorem SortedKeyIterBase.defcomparator_total (a b : UniConf) :
    SortedKeyIterBase.defcomparator a b ≤ 0 ∨ SortedKeyIterBase.defcomparator b a ≤ 0 := by
  have h1 := SortedKeyIterBase.defcomparator_le a b
  have h2 := SortedKeyIterBase.defcomparator_le b a
  unfold SortedKeyIterBase.notAfter at h1 h2
  rw [h1, h2]
  exact le_total _ _

theorem SortedKeyIterBase.defcomparator_trans (a b c : UniConf)
    (hab : SortedKeyIterBase.defcomparator a b ≤ 0)
    (hbc : SortedKeyIterBase.defcomparator b c ≤ 0) :
    SortedKeyIterBase.defcomparator a c ≤ 0 := by
  have h1 := SortedKeyIterBase.defcomparator_le a b
  have h2 := SortedKeyIterBase.defcomparator_le b c
  have h3 := SortedKeyIterBase.defcomparator_le a c
  unfold SortedKeyIterBase.notAfter at h1 h2 h3
  rw [h3]
  exact le_trans (h1.mp hab) (h2.mp hbc)

/-- C6: for every comparator (an ordering: of two handles one is not after the other, and "not
after" is transitive), and whatever the sorted iterator buffered before, `rewind()` of
`SortedIter`, `SortedRecursiveIter` and `SortedXIter` returns, and the handles that the following
`next()` calls yield until `next()` returns false are a permutation of the one pass of the
unsorted iterator (same handles, same multiplicities, nothing left from an earlier pass), in
non-decreasing order under the comparator; under the default comparator that is the alphabetical
order of the full keys. -/
theorem sorted_rewind_yields (s : SortedIterOver) (extra : Nat)
    (htotal : ∀ a b, s.base.xcomparator a b ≤ 0 ∨ s.base.xcomparator b a ≤ 0)
    (htrans : ∀ a b c, s.base.xcomparator a b ≤ 0 → s.base.xcomparator b c ≤ 0 →
      s.base.xcomparator a c ≤ 0) :
    ∃ s1 out,
      SortedIter.rewind (extra + s.it.all.length + 1) s = some s1 ∧
      SortedRecursiveIter.rewind (extra + s.it.all.length + 1) s = some s1 ∧
      SortedXIter.rewind (extra + s.it.all.length + 1) s = some s1 ∧
      s1.base.yields (extra + s.it.all.length + 1) = some out ∧
      out.Perm s.it.all ∧
      out.Sorted (fun a b => s.base.xcomparator a b ≤ 0) ∧
      (s.base.xcomparator = SortedKeyIterBase.defcomparator →
        out.Sorted (fun a b => a.fullkey.folded ≤ b.fullkey.folded)) := by
  obtain ⟨it1, h1⟩ := SortedKeyIterBase.populate_sorts extra s.base s.it
  haveI : IsTotal UniConf (SortedKeyIterBase.notAfter s.base.xcomparator) := ⟨htotal⟩
  haveI : IsTrans UniConf (SortedKeyIterBase.notAfter s.base.xcomparator) := ⟨htrans⟩
  have hy := SortedKeyIterBase.yields_rest s.it.all.length extra
    { s.base with
      index := 0
      count := s.it.all.length
      xkeys := s.it.all.insertionSort (SortedKeyIterBase.notAfter s.base.xcomparator) }
    (by simp only [List.length_insertionSort]) (by simp only [Nat.zero_add])
  have hsorted : (s.it.all.insertionSort (SortedKeyIterBase.notAfter s.base.xcomparator)).Sorted
      (SortedKeyIterBase.notAfter s.base.xcomparator) := List.sorted_insertionSort _ _
  refine ⟨⟨_, it1⟩, _, ?_, ?_, ?_, hy, ?_, ?_, ?_⟩
  · simp only [SortedIter.rewind, h1, Option.map_some']
  · simp only [SortedRecursiveIter.rewind, h1, Option.map_some']
  · simp only [SortedXIter.rewind, h1, Option.map_some']
  · simp only [List.drop_zero]
    exact List.perm_insertionSort _ _
  · simp only [List.drop_zero]
    exact hsorted
  · intro hdef
    simp only [List.drop_zero]
    refine List.Pairwise.imp ?_ hsorted
    intro a b hab
    rw [hdef] at hab
    exact (SortedKeyIterBase.defcomparator_le a b).mp hab

/-- Witness of C6: the default comparator is total and transitive, so the sorted iterator that
still buffers `old` yields a sorted permutation of the pass `b`, `Zebra`, `a/z`, `apple`, `b`,
namely `a/z`, `apple`, `b`, `b`, `Zebra`. -/
theorem sorted_rewind_yields_witness :
    (∃ s1 out,
      SortedIter.rewind (0 + defaultSorted.it.all.length + 1) defaultSorted = some s1 ∧
      SortedRecursiveIter.rewind (0 + defaultSorted.it.all.length + 1) defaultSorted = some s1 ∧
      SortedXIter.rewind (0 + defaultSorted.it.all.length + 1) defaultSorted = some s1 ∧
      s1.base.yields (0 + defaultSorted.it.all.length + 1) = some out ∧
      out.Perm defaultSorted.it.all ∧
      out.Sorted (fun a b => defaultSorted.base.xcomparator a b ≤ 0) ∧
      (defaultSorted.base.xcomparator = SortedKeyIterBase.defcomparator →
        out.Sorted (fun a b => a.fullkey.folded ≤ b.fullkey.folded))) ∧
    (SortedIter.rewind 6 defaultSorted).bind (fun s1 => s1.base.yields 6)
      = some [⟨some 0, ⟨["a", "z"]⟩⟩, ⟨some 0, ⟨["apple"]⟩⟩, ⟨some 0, ⟨["b"]⟩⟩,
          ⟨some 0, ⟨["b"]⟩⟩, ⟨some 0, ⟨["Zebra"]⟩⟩] :=
  ⟨sorted_rewind_yields defaultSorted 0 SortedKeyIterBase.defcomparator_total
      SortedKeyIterBase.defcomparator_trans, by decide⟩

/-! ### The list generator -/

theorem UniConfKey.sameAs_refl (k : UniConfKey) : k.sameAs k = true := by
  simp [UniConfKey.sameAs]

theorem UniConfKey.sameAs_trans {a b c : UniConfKey} (hab : a.sameAs b = true)
    (hbc : b.sameAs c = true) : a.sameAs c = true := by
  simp only [UniConfKey.sameAs, beq_iff_eq] at *
  exact hab.trans hbc

theorem UniConfKey.seen_of_same (seen : List UniConfKey) (k x : UniConfKey)
    (hk : seen.any (fun s => s.sameAs k) = true) (hkx : k.sameAs x = true) :
    seen.any (fun s => s.sameAs x) = true := by
  rw [List.any_eq_true] at hk ⊢
  obtain ⟨s, hs, hsk⟩ := hk
  exact ⟨s, hs, UniConfKey.sameAs_trans hsk hkx⟩

theorem firstOccurrences_sub (ks : List UniConfKey) :
    ∀ (seen : List UniConfKey) (x : UniConfKey), x ∈ firstOccurrences seen ks →
      x ∈ ks ∧ seen.any (fun s => s.sameAs x) = false := by
  induction ks with
  | nil => intro seen x hx; simp [firstOccurrences] at hx
  | cons k ks ih =>
    intro seen x hx
    cases hk : seen.any (fun s => s.sameAs k) with
    | true =>
      simp only [firstOccurrences, hk, if_true] at hx
      exact ⟨List.mem_cons_of_mem _ (ih seen x hx).1, (ih seen x hx).2⟩
    | false =>
      simp only [firstOccurrences, hk, Bool.false_eq_true, if_false, List.mem_cons] at hx
      rcases hx with rfl | hx
      · exact ⟨List.mem_cons_self _ _, hk⟩
      · have h := ih (k :: seen) x hx
        refine ⟨List.mem_cons_of_mem _ h.1, ?_⟩
        have h2 := h.2
        simp only [List.any_cons, Bool.or_eq_false_iff] at h2
        exact h2.2

theorem firstOccurrences_cover (ks : List UniConfKey) :
    ∀ (seen : List UniConfKey) (x : UniConfKey), x ∈ ks →
      seen.any (fun s => s.sameAs x) = true ∨
        ∃ y ∈ firstOccurrences seen ks, y.sameAs x = true := by
  induction ks with
  | nil => intro seen x hx; cases hx
  | cons k ks ih =>
    intro seen x hx
    cases hk : seen.any (fun s => s.sameAs k) with
    | true =>
      simp only [firstOccurrences, hk, if_true]
      rcases List.mem_cons.mp hx with rfl | hx
      · exact Or.inl hk
      · exact ih seen x hx
    | false =>
      simp only [firstOccurrences, hk, Bool.false_eq_true, if_false, List.mem_cons,
        exists_eq_or_imp]
      rcases List.mem_cons.mp hx with rfl | hx
      · exact Or.inr (Or.inl (UniConfKey.sameAs_refl _))
      · rcases ih (k :: seen) x hx with h | ⟨y, hy, hyx⟩
        · simp only [List.any_cons, Bool.or_eq_true] at h
          rcases h with h | h
          · exact Or.inr (Or.inl h)
          · exact Or.inl h
        · exact Or.inr (Or.inr ⟨y, hy, hyx⟩)

theorem firstOccurrences_distinct (ks : List UniConfKey) :
    ∀ seen : List UniConfKey,
      (firstOccurrences seen ks).Pairwise (fun a b => a.sameAs b = false) := by
  induction ks with
  | nil => intro seen; simp [firstOccurrences]
  | cons k ks ih =>
    intro seen
    cases hk : seen.any (fun s => s.sameAs k) with
    | true => simp only [firstOccurrences, hk, if_true]; exact ih seen
    | false =>
      simp only [firstOccurrences, hk, Bool.false_eq_true, if_false, List.pairwise_cons]
      refine ⟨?_, ih _⟩
      intro b hb
      have h := (firstOccurrences_sub ks (k :: seen) b hb).2
      simp only [List.any_cons, Bool.or_eq_false_iff] at h
      exact h.1

theorem firstOccurrences_order (ks : List UniConfKey) :
    ∀ seen : List UniConfKey,
      (firstOccurrences seen ks).Pairwise
        (fun a b => firstPlace a ks < firstPlace b ks) := by
  induction ks with
  | nil => intro seen; simp [firstOccurrences]
  | cons k ks ih =>
    intro seen
    have later : ∀ (seen1 : List UniConfKey) (a : UniConfKey),
        seen1.any (fun s => s.sameAs k) = true → a ∈ firstOccurrences seen1 ks →
          k.sameAs a = false := by
      intro seen1 a hk1 ha
      cases hka : k.sameAs a with
      | false => rfl
      | true =>
        have h1 := UniConfKey.seen_of_same seen1 k a hk1 hka
        rw [(firstOccurrences_sub ks seen1 a ha).2] at h1
        cases h1
    have shift : ∀ seen1 : List UniConfKey, seen1.any (fun s => s.sameAs k) = true →
        (firstOccurrences seen1 ks).Pairwise
          (fun a b => firstPlace a (k :: ks) < firstPlace b (k :: ks)) := by
      intro seen1 hk1
      refine (ih seen1).imp_of_mem ?_
      intro a b ha hb hab
      simp only [firstPlace, later seen1 a hk1 ha, later seen1 b hk1 hb, Bool.false_eq_true,
        if_false]
      omega
    have hself : (k :: seen).any (fun s => s.sameAs k) = true := by
      simp [UniConfKey.sameAs_refl]
    cases hk : seen.any (fun s => s.sameAs k) with
    | true =>
      simp only [firstOccurrences, hk, if_true]
      exact shift seen hk
    | false =>
      simp only [firstOccurrences, hk, Bool.false_eq_true, if_false, List.pairwise_cons]
      refine ⟨?_, shift (k :: seen) hself⟩
      intro b hb
      simp only [firstPlace, UniConfKey.sameAs_refl, if_true, later (k :: seen) b hself hb,
        Bool.false_eq_true, if_false]
      omega

theorem firstOccurrences_skip (seen pre rest : List UniConfKey)
    (hpre : ∀ x ∈ pre, seen.any (fun s => s.sameAs x) = true) :
    firstOccurrences seen (pre ++ rest) = firstOccurrences seen rest := by
  induction pre with
  | nil => rfl
  | cons x pre ih =>
    have hx : seen.any (fun s => s.sameAs x) = true := hpre x (List.mem_cons_self _ _)
    simp only [List.cons_append, firstOccurrences, hx, if_true]
    exact ih (fun y hy => hpre y (List.mem_cons_of_mem _ hy))

theorem UniListGen.IterIter.scan_none (d : List UniConfKey) (it : List UniConfKey)
    (h : UniListGen.IterIter.scan d it = none) :
    ∀ x ∈ it, d.any (fun s => s.sameAs x) = true := by
  induction it with
  | nil => intro x hx; cases hx
  | cons k ks ih =>
    cases hk : d.any (fun s => s.sameAs k) with
    | true =>
      simp only [UniListGen.IterIter.scan, hk, if_true] at h
      intro x hx
      rcases List.mem_cons.mp hx with rfl | hx
      · exact hk
      · exact ih h x hx
    | false => simp [UniListGen.IterIter.scan, hk] at h

theorem UniListGen.IterIter.scan_some (d : List UniConfKey) (it : List UniConfKey)
    (k : UniConfKey) (ks : List UniConfKey) (h : UniListGen.IterIter.scan d it = some (k, ks)) :
    ∃ pre, it = pre ++ k :: ks ∧ (∀ x ∈ pre, d.any (fun s => s.sameAs x) = true) ∧
      d.any (fun s => s.sameAs k) = false := by
  induction it with
  | nil => simp [UniListGen.IterIter.scan] at h
  | cons a as ih =>
    cases ha : d.any (fun s => s.sameAs a) with
    | true =>
      simp only [UniListGen.IterIter.scan, ha, if_true] at h
      obtain ⟨pre, h1, h2, h3⟩ := ih h
      refine ⟨a :: pre, by rw [h1]; rfl, ?_, h3⟩
      intro x hx
      rcases List.mem_cons.mp hx with rfl | hx
      · exact ha
      · exact h2 x hx
    | false =>
      simp only [UniListGen.IterIter.scan, ha, Bool.false_eq_true, if_false, Option.some.injEq,
        Prod.mk.injEq] at h
      obtain ⟨rfl, rfl⟩ := h
      exact ⟨[], rfl, by simp, ha⟩

theorem UniListGen.IterIter.advance_none (d : List UniConfKey) (pending : List (List UniConfKey))
    (h : UniListGen.IterIter.advance d pending = none) :
    ∀ x ∈ pending.flatten, d.any (fun s => s.sameAs x) = true := by
  induction pending with
  | nil => intro x hx; simp at hx
  | cons it rest ih =>
    cases hs : UniListGen.IterIter.scan d it with
    | some r => simp [UniListGen.IterIter.advance, hs] at h
    | none =>
      simp only [UniListGen.IterIter.advance, hs] at h
      intro x hx
      rw [List.flatten_cons, List.mem_append] at hx
      rcases hx with hx | hx
      · exact UniListGen.IterIter.scan_none d it hs x hx
      · exact ih h x hx

theorem UniListGen.IterIter.advance_some (d : List UniConfKey) (pending : List (List UniConfKey))
    (k : UniConfKey) (p : List (List UniConfKey))
    (h : UniListGen.IterIter.advance d pending = some (k, p)) :
    ∃ pre, pending.flatten = pre ++ k :: p.flatten ∧
      (∀ x ∈ pre, d.any (fun s => s.sameAs x) = true) ∧
      d.any (fun s => s.sameAs k) = false := by
  induction pending with
  | nil => simp [UniListGen.IterIter.advance] at h
  | cons it rest ih =>
    cases hs : UniListGen.IterIter.scan d it with
    | some r =>
      obtain ⟨k1, ks⟩ := r
      simp only [UniListGen.IterIter.advance, hs, Option.some.injEq, Prod.mk.injEq] at h
      obtain ⟨rfl, rfl⟩ := h
      obtain ⟨pre, h1, h2, h3⟩ := UniListGen.IterIter.scan_some d it k1 ks hs
      refine ⟨pre, ?_, h2, h3⟩
      simp [h1]
    | none =>
      simp only [UniListGen.IterIter.advance, hs] at h
      obtain ⟨pre, h1, h2, h3⟩ := ih h
      refine ⟨it ++ pre, ?_, ?_, h3⟩
      · simp [h1]
      · intro x hx
        rcases List.mem_append.mp hx with hx | hx
        · exact UniListGen.IterIter.scan_none d it hs x hx
        · exact h2 x hx

theorem UniListGen.IterIter.merged_yields_succ (fuel : Nat) (s : UniListGen.IterIter) :
    UniListGen.IterIter.yields (fuel + 1) s =
      match s.next with
      | (false, _) => some []
      | (true, s1) => (UniListGen.IterIter.yields fuel s1).map (fun rest => s1.key :: rest) :=
  rfl

theorem UniListGen.IterIter.yields_all :
    ∀ (n extra : Nat) (s : UniListGen.IterIter), s.pending.flatten.length ≤ n →
      UniListGen.IterIter.yields (extra + n + 1) s
        = some (firstOccurrences s.d s.pending.flatten) := by
  intro n
  induction n with
  | zero =>
    intro extra s hlen
    rw [UniListGen.IterIter.merged_yields_succ]
    have hnil : s.pending.flatten = [] := List.length_eq_zero.mp (Nat.le_zero.mp hlen)
    cases ha : UniListGen.IterIter.advance s.d s.pending with
    | none => simp [UniListGen.IterIter.next, ha, hnil, firstOccurrences]
    | some r =>
      obtain ⟨k, p⟩ := r
      obtain ⟨pre, h1, _, _⟩ := UniListGen.IterIter.advance_some _ _ _ _ ha
      rw [hnil] at h1
      simp at h1
  | succ n ih =>
    intro extra s hlen
    have hfuel : extra + (n + 1) + 1 = (extra + n + 1) + 1 := by omega
    rw [hfuel, UniListGen.IterIter.merged_yields_succ]
    cases ha : UniListGen.IterIter.advance s.d s.pending with
    | none =>
      have hall := UniListGen.IterIter.advance_none _ _ ha
      have h0 := firstOccurrences_skip s.d s.pending.flatten [] hall
      simp only [List.append_nil] at h0
      simp [UniListGen.IterIter.next, ha, h0, firstOccurrences]
    | some r =>
      obtain ⟨k, p⟩ := r
      obtain ⟨pre, h1, h2, h3⟩ := UniListGen.IterIter.advance_some _ _ _ _ ha
      have hlen1 : p.flatten.length ≤ n := by
        have := congrArg List.length h1
        simp only [List.length_append, List.length_cons] at this
        omega
      have hstep := ih extra { s with cur := k, d := k :: s.d, pending := p } hlen1
      simp only [UniListGen.IterIter.next, ha]
      rw [hstep, h1, firstOccurrences_skip _ _ _ h2]
      simp [firstOccurrences, h3, UniListGen.IterIter.key]

/-- C7: the iterator of a list generator for a key returns, and of the keys it yields until
`next()` returns false no two are equal (keys being compared ignoring letter case, as
everywhere), each is a key that the iterator of some child generator yields for that key, every
such key is among them, and they stand in the order of their first occurrence when the children
are visited in list order; children `a`, `b` and `b`, `c` give `a`, `b`, `c`, and children `a`,
`B` and `b`, `A`, `c` give `a`, `B`, `c`. -/
theorem listgen_iterator_merges (g : UniListGen) (key : UniConfKey) (extra : Nat) :
    (∃ out,
      (g.iterator key).rewind.yields (extra + (g.childKeys key).length + 1) = some out ∧
      out = firstOccurrences [] (g.childKeys key) ∧
      out.Pairwise (fun a b => a.sameAs b = false) ∧
      (∀ k ∈ out, ∃ c ∈ g.l, k ∈ c.iterator key) ∧
      (∀ c ∈ g.l, ∀ k ∈ c.iterator key, ∃ y ∈ out, y.sameAs k = true) ∧
      out.Pairwise
        (fun a b => firstPlace a (g.childKeys key) < firstPlace b (g.childKeys key))) ∧
    (mergeExample.iterator UniConfKey.EMPTY).rewind.yields 5
      = some [⟨["a"]⟩, ⟨["b"]⟩, ⟨["c"]⟩] ∧
    (mergeCaseExample.iterator UniConfKey.EMPTY).rewind.yields 6
      = some [⟨["a"]⟩, ⟨["B"]⟩, ⟨["c"]⟩] := by
  have hmem : ∀ k, k ∈ g.childKeys key ↔ ∃ c ∈ g.l, k ∈ c.iterator key := by
    intro k
    simp only [UniListGen.childKeys, List.mem_flatten, List.mem_map]
    constructor
    · rintro ⟨_, ⟨c, hc, rfl⟩, hk⟩; exact ⟨c, hc, hk⟩
    · rintro ⟨c, hc, hk⟩; exact ⟨_, ⟨c, hc, rfl⟩, hk⟩
  refine ⟨⟨_, UniListGen.IterIter.yields_all (g.childKeys key).length extra
    (g.iterator key).rewind (le_refl _), rfl, firstOccurrences_distinct _ _, ?_, ?_,
    firstOccurrences_order _ _⟩, by decide, by decide⟩
  · intro k hk
    exact (hmem k).mp (firstOccurrences_sub _ _ k hk).1
  · intro c hc k hk
    rcases firstOccurrences_cover _ [] k ((hmem k).mpr ⟨c, hc, hk⟩) with h | h
    · simp at h
    · exact h

/-- C9: the generator that `creator` makes for the moniker `"null"`, whatever its arguments, is
empty in every state that a sequence of `set` calls reaches: `get` returns the null string and
`exists` and `haschildren` return false for every key, and a further `set` is rejected. -/
theorem null_generator_always_empty (moniker : WvString) (obj userdata : Option Nat)
    (sets : List (UniConfKey × WvString)) (key : UniConfKey) (value : WvString) :
    ((UniNullGen.creator moniker obj userdata).afterSets sets).get key = WvString.null ∧
    ((UniNullGen.creator moniker obj userdata).afterSets sets).exists key = false ∧
    ((UniNullGen.creator moniker obj userdata).afterSets sets).haschildren key = false ∧
    (((UniNullGen.creator moniker obj userdata).afterSets sets).set key value).1 = false :=
  ⟨rfl, rfl, rfl, rfl⟩

/-! ### Wildcard iteration -/

theorem strcasecmpIsZero_iff (a b : String) :
    strcasecmpIsZero a b = true ↔ a.data.map Char.toLower = b.data.map Char.toLower := by
  simp [strcasecmpIsZero]

theorem strcasecmpIsZero_self (a : String) : strcasecmpIsZero a a = true := by
  simp [strcasecmpIsZero]

theorem strcasecmpIsZero_congr (x m n : String) (hmn : strcasecmpIsZero m n = true) :
    strcasecmpIsZero x m = strcasecmpIsZero x n := by
  rw [strcasecmpIsZero_iff] at hmn
  simp only [strcasecmpIsZero, hmn]

theorem WvConfigSection.find_congr (m n : String) (hmn : strcasecmpIsZero m n = true)
    (l : List WvConfigEntry) : WvConfigSection.find m l = WvConfigSection.find n l := by
  induction l with
  | nil => rfl
  | cons e rest ih =>
    simp only [WvConfigSection.find, strcasecmpIsZero_congr e.name m n hmn, ih]

theorem WvConfigSection.find_some (n : String) (l : List WvConfigEntry) :
    ∀ i, WvConfigSection.find n l = some i →
      ∃ pre e post, l = pre ++ e :: post ∧ pre.length = i ∧
        strcasecmpIsZero e.name n = true ∧ ∀ x ∈ pre, strcasecmpIsZero x.name n = false := by
  induction l with
  | nil => intro i h; simp [WvConfigSection.find] at h
  | cons e rest ih =>
    intro i h
    by_cases he : strcasecmpIsZero e.name n = true
    · simp only [WvConfigSection.find, he, if_true, Option.some.injEq] at h
      exact ⟨[], e, rest, rfl, by simpa using h, he, by simp⟩
    · simp only [WvConfigSection.find, he, Bool.false_eq_true, if_false, Option.map_eq_some'] at h
      obtain ⟨j, hj, rfl⟩ := h
      obtain ⟨pre, e1, post, h1, h2, h3, h4⟩ := ih j hj
      refine ⟨e :: pre, e1, post, by rw [h1]; rfl, by simp [h2], h3, ?_⟩
      intro x hx
      rcases List.mem_cons.mp hx with rfl | hx
      · simpa using he
      · exact h4 x hx

theorem WvConfigSection.find_none (n : String) (l : List WvConfigEntry) :
    WvConfigSection.find n l = none ↔ ∀ x ∈ l, strcasecmpIsZero x.name n = false := by
  induction l with
  | nil => simp [WvConfigSection.find]
  | cons e rest ih =>
    by_cases he : strcasecmpIsZero e.name n = true
    · simp [WvConfigSection.find, he]
    · simp only [Bool.not_eq_true] at he
      simp [WvConfigSection.find, he, ih]

theorem WvConfigSection.find_split (n : String) (pre post : List WvConfigEntry)
    (e : WvConfigEntry) (he : strcasecmpIsZero e.name n = true)
    (hpre : ∀ x ∈ pre, strcasecmpIsZero x.name n = false) :
    WvConfigSection.find n (pre ++ e :: post) = some pre.length := by
  induction pre with
  | nil => simp [WvConfigSection.find, he]
  | cons x pre ih =>
    have hx : strcasecmpIsZero x.name n = false := hpre x (List.mem_cons_self _ _)
    have := ih (fun y hy => hpre y (List.mem_cons_of_mem _ hy))
    simp [WvConfigSection.find, hx, this]

theorem List.get?_split {α : Type} (pre post : List α) (e : α) :
    (pre ++ e :: post).get? pre.length = some e := by
  induction pre with
  | nil => rfl
  | cons x pre ih => simpa using ih

theorem List.set_split {α : Type} (pre post : List α) (e x : α) :
    (pre ++ e :: post).set pre.length x = pre ++ x :: post := by
  induction pre with
  | nil => rfl
  | cons y pre ih => simp [ih]

theorem List.eraseIdx_split {α : Type} (pre post : List α) (e : α) :
    (pre ++ e :: post).eraseIdx pre.length = pre ++ post := by
  induction pre with
  | nil => rfl
  | cons y pre ih => simpa using ih

theorem WvConfigSection.set_blank_found (s : WvConfigSection) (n : String) (v : WvString)
    (hv : WvString.isBlank v = true) (pre post : List WvConfigEntry) (e : WvConfigEntry)
    (hl : s.entries = pre ++ e :: post) (he : strcasecmpIsZero e.name n = true)
    (hpre : ∀ x ∈ pre, strcasecmpIsZero x.name n = false) :
    (s.set n v).entries = pre ++ post := by
  have hf : s.index n = some pre.length := by
    rw [WvConfigSection.index, hl]; exact WvConfigSection.find_split n pre post e he hpre
  simp only [WvConfigSection.set, hv, if_true, hf, hl, List.eraseIdx_split]

theorem WvConfigSection.set_value_found (s : WvConfigSection) (n : String) (v : WvString)
    (hv : WvString.isBlank v = false) (pre post : List WvConfigEntry) (e : WvConfigEntry)
    (hl : s.entries = pre ++ e :: post) (he : strcasecmpIsZero e.name n = true)
    (hpre : ∀ x ∈ pre, strcasecmpIsZero x.name n = false) :
    (s.set n v).entries = pre ++ ⟨e.name, v⟩ :: post := by
  have hf : s.index n = some pre.length := by
    rw [WvConfigSection.index, hl]; exact WvConfigSection.find_split n pre post e he hpre
  simp only [WvConfigSection.set, hv, Bool.false_eq_true, if_false, hf, hl, List.get?_split,
    List.set_split, WvConfigEntry.set]

theorem WvConfigSection.set_value_new (s : WvConfigSection) (n : String) (v : WvString)
    (hv : WvString.isBlank v = false) (hf : s.index n = none) :
    (s.set n v).entries = s.entries ++ [⟨n, v⟩] := by
  simp only [WvConfigSection.set, hv, Bool.false_eq_true, if_false, hf]

theorem WvConfigSection.get_split (s : WvConfigSection) (n : String) (d : WvString)
    (pre post : List WvConfigEntry) (e : WvConfigEntry)
    (hl : s.entries = pre ++ e :: post) (he : strcasecmpIsZero e.name n = true)
    (hpre : ∀ x ∈ pre, strcasecmpIsZero x.name n = false) :
    s.get n d = e.value := by
  have hf : s.index n = some pre.length := by
    rw [WvConfigSection.index, hl]; exact WvConfigSection.find_split n pre post e he hpre
  simp only [WvConfigSection.get, hf, hl, List.get?_split]

/-- C11: round trip on a section: after `set(n, v)` with a value `v` that is not blank,
`get(m, d)` returns `v` for every name `m` with `strcasecmp(m, n) == 0` and every default `d`,
whatever the entries of the section were. -/
theorem section_set_then_get (s : WvConfigSection) (n m v : String) (d : WvString)
    (hv : WvString.isBlank (some v) = false) (hm : strcasecmpIsZero m n = true) :
    (s.set n (some v)).get m d = some v := by
  have hget : ∀ t : WvConfigSection, t.get m d = t.get n d := by
    intro t
    simp only [WvConfigSection.get, WvConfigSection.index, WvConfigSection.find_congr m n hm]
  rw [hget]
  cases hf : s.index n with
  | none =>
    have hnone := (WvConfigSection.find_none n s.entries).mp hf
    exact WvConfigSection.get_split _ n d s.entries [] ⟨n, some v⟩
      (by rw [WvConfigSection.set_value_new s n _ hv hf]) (strcasecmpIsZero_self n) hnone
  | some i =>
    obtain ⟨pre, e, post, hl, _, he, hpre⟩ := WvConfigSection.find_some n s.entries i hf
    exact WvConfigSection.get_split _ n d pre post ⟨e.name, some v⟩
      (WvConfigSection.set_value_found s n _ hv pre post e hl he hpre) he hpre

/-- Witness of C11: after `set("HOST", "b")` on the section with `Host` and `Port`,
`get("host", null)` is `"b"`. -/
theorem section_set_then_get_witness :
    WvString.isBlank (some "b") = false ∧ strcasecmpIsZero "host" "HOST" = true ∧
    (plainSection.set "HOST" (some "b")).get "host" none = some "b" :=
  ⟨by decide, by decide, section_set_then_get plainSection "HOST" "host" "b" none (by decide)
    (by decide)⟩

/-- C12 as stated fails: in the section with the entries `Key` and `KEY`, `set("key", null)`
unlinks the first of them only, so the lookup of `key` still finds an entry and `get("key", d)`
returns the value `"2"` of `KEY`, not the default. -/
theorem section_delete_leaves_double :
    (doubledSection.set "key" none).entries = [⟨"KEY", some "2"⟩] ∧
    (doubledSection.set "key" none).index "key" = some 0 ∧
    (doubledSection.set "key" none).get "key" none = some "2" ∧
    (doubledSection.set "key" (some "")).get "key" (some "dflt") = some "2" := by
  decide

/-- C12, amended: in a section in which no two entries have names equal ignoring letter case,
after `set(n, v)` with `v` null or empty the lookup of `n` returns `NULL` and `get(n, d)` returns
the default `d`. -/
theorem section_delete_unique (s : WvConfigSection) (n : String) (v d : WvString)
    (huniq : WvConfigSection.NamesUnique s.entries) (hv : WvString.isBlank v = true) :
    (s.set n v).index n = none ∧ (s.set n v).get n d = d := by
  have hidx : (s.set n v).index n = none := by
    cases hf : s.index n with
    | none =>
      have hs : s.set n v = s := by simp only [WvConfigSection.set, hv, if_true, hf]
      rw [hs, hf]
    | some i =>
      obtain ⟨pre, e, post, hl, _, he, hpre⟩ := WvConfigSection.find_some n s.entries i hf
      rw [WvConfigSection.index, WvConfigSection.set_blank_found s n v hv pre post e hl he hpre,
        WvConfigSection.find_none]
      intro x hx
      rcases List.mem_append.mp hx with hx | hx
      · exact hpre x hx
      · have hpw : (pre ++ e :: post).Pairwise
            (fun a b => strcasecmpIsZero a.name b.name = false) := hl ▸ huniq
        have hex := (List.pairwise_cons.mp (List.pairwise_append.mp hpw).2.1).1 x hx
        rw [← hex]
        rw [strcasecmpIsZero_iff] at he
        simp only [strcasecmpIsZero, he]
        rw [Bool.eq_iff_iff]
        simp only [beq_iff_eq]
        exact eq_comm
  refine ⟨hidx, ?_⟩
  simp only [WvConfigSection.get, hidx]

/-- Witness of C12: the names `Host` and `Port` are unique, and after `set("host", "")` the
lookup of `host` fails. -/
theorem section_delete_unique_witness :
    WvConfigSection.NamesUnique plainSection.entries ∧ WvString.isBlank (some "") = true ∧
    (plainSection.set "host" (some "")).index "host" = none ∧
    (plainSection.set "host" (some "")).get "host" (some "x") = some "x" :=
  ⟨by simp [WvConfigSection.NamesUnique, plainSection, strcasecmpIsZero], by decide,
    section_delete_unique plainSection "host" (some "") (some "x")
      (by simp [WvConfigSection.NamesUnique, plainSection, strcasecmpIsZero]) (by decide)⟩

theorem WvConfigSection.namesUnique_iff (l : List WvConfigEntry) :
    WvConfigSection.NamesUnique l ↔
      (l.map (fun e => e.name)).Pairwise (fun a b => strcasecmpIsZero a b = false) := by
  simp only [WvConfigSection.NamesUnique, List.pairwise_map]

/-- C16: `set` keeps the names of a section unique ignoring letter case, for every name and
value; with a value that is not blank, `set` on a name that the lookup finds at position `i`
stores the value in that entry, keeping its name and all other entries, their number and order,
and `set` on a name that the lookup does not find appends the one entry `(n, v)` at the end. -/
theorem section_set_keeps_unique (s : WvConfigSection) (n : String) (v : WvString) :
    (WvConfigSection.NamesUnique s.entries → WvConfigSection.NamesUnique (s.set n v).entries) ∧
    (WvString.isBlank v = false → ∀ i, s.index n = some i →
      ∃ e, s.entries.get? i = some e ∧ strcasecmpIsZero e.name n = true ∧
        (s.set n v).entries = s.entries.set i ⟨e.name, v⟩ ∧
        (s.set n v).entries.length = s.entries.length ∧
        (s.set n v).entries.map (fun x => x.name) = s.entries.map (fun x => x.name)) ∧
    (WvString.isBlank v = false → s.index n = none →
      (s.set n v).entries = s.entries ++ [⟨n, v⟩]) := by
  refine ⟨?_, ?_, ?_⟩
  · intro huniq
    cases hf : s.index n with
    | none =>
      cases hv : WvString.isBlank v with
      | true =>
        have hs : s.set n v = s := by simp only [WvConfigSection.set, hv, if_true, hf]
        rw [hs]; exact huniq
      | false =>
        rw [WvConfigSection.set_value_new s n v hv hf]
        have hnone := (WvConfigSection.find_none n s.entries).mp hf
        unfold WvConfigSection.NamesUnique at huniq ⊢
        rw [List.pairwise_append]
        exact ⟨huniq, List.pairwise_singleton _ _, fun a ha b hb => by
          rw [List.mem_singleton] at hb; subst hb; exact hnone a ha⟩
    | some i =>
      obtain ⟨pre, e, post, hl, _, he, hpre⟩ := WvConfigSection.find_some n s.entries i hf
      cases hv : WvString.isBlank v with
      | true =>
        rw [WvConfigSection.set_blank_found s n v hv pre post e hl he hpre]
        unfold WvConfigSection.NamesUnique at huniq ⊢
        rw [hl] at huniq
        exact huniq.sublist (List.Sublist.append_left (List.sublist_cons_self e post) pre)
      | false =>
        rw [WvConfigSection.set_value_found s n v hv pre post e hl he hpre]
        rw [WvConfigSection.namesUnique_iff] at huniq ⊢
        rw [hl] at huniq
        simpa using huniq
  · intro hv i hf
    obtain ⟨pre, e, post, hl, hi, he, hpre⟩ := WvConfigSection.find_some n s.entries i hf
    subst hi
    refine ⟨e, by rw [hl]; exact List.get?_split pre post e, he, ?_, ?_, ?_⟩
    · rw [WvConfigSection.set_value_found s n v hv pre post e hl he hpre, hl, List.set_split]
    · rw [WvConfigSection.set_value_found s n v hv pre post e hl he hpre, hl]
      simp
    · rw [WvConfigSection.set_value_found s n v hv pre post e hl he hpre, hl]
      simp
  · intro hv hf
    exact WvConfigSection.set_value_new s n v hv hf

/-- Witness of C16 on the section with `Host` and `Port`: the names stay unique after
`set("PORT", "8080")`, which finds `Port` at position 1 and stores the value there, and
`set("User", "u")` appends one entry. -/
theorem section_set_keeps_unique_witness :
    WvConfigSection.NamesUnique plainSection.entries ∧
    WvConfigSection.NamesUnique (plainSection.set "PORT" (some "8080")).entries ∧
    plainSection.index "PORT" = some 1 ∧
    (plainSection.set "PORT" (some "8080")).entries
      = [⟨"Host", some "a"⟩, ⟨"Port", some "8080"⟩] ∧
    plainSection.index "User" = none ∧
    (plainSection.set "User" (some "u")).entries = plainSection.entries ++ [⟨"User", some "u"⟩] :=
  ⟨by simp [WvConfigSection.NamesUnique, plainSection, strcasecmpIsZero],
    (section_set_keeps_unique plainSection "PORT" (some "8080")).1
      (by simp [WvConfigSection.NamesUnique, plainSection, strcasecmpIsZero]),
    by decide, by decide, by decide,
    (section_set_keeps_unique plainSection "User" (some "u")).2.2 (by decide) (by decide)⟩

/-! ### Byte buffers -/

theorem WvBuffer.skipChunks_flatten (cs : List (List Nat)) :
    ∀ count, (WvBuffer.skipChunks cs count).flatten = cs.flatten.drop count := by
  induction cs with
  | nil => intro count; simp [WvBuffer.skipChunks]
  | cons c cs ih =>
    intro count
    by_cases h0 : count = 0
    · simp [WvBuffer.skipChunks, h0]
    · by_cases hle : c.length ≤ count
      · simp only [WvBuffer.skipChunks, h0, if_false, hle, if_true, ih, List.flatten_cons]
        rw [List.drop_append_eq_append_drop, List.drop_eq_nil_of_le hle, List.nil_append]
      · simp only [WvBuffer.skipChunks, h0, if_false, hle, List.flatten_cons]
        rw [List.drop_append_eq_append_drop]
        have : count - c.length = 0 := by omega
        rw [this, List.drop_zero]

theorem WvBuffer.put_contents (b : WvBuffer) (data : List Nat) (count : Nat) :
    (b.put data count).contents = b.contents ++ data.take count := by
  by_cases h0 : count = 0
  · simp [WvBuffer.put, h0]
  · simp [WvBuffer.put, h0, WvBuffer.contents]

theorem List.take_length_takeWhile (p : Nat → Bool) (a : List Nat) :
    a.take (a.takeWhile p).length = a.takeWhile p := by
  induction a with
  | nil => rfl
  | cons x a ih =>
    by_cases hx : p x = true
    · simp [List.takeWhile_cons, hx, ih]
    · simp [List.takeWhile_cons, hx]

theorem WvStringArray.text_terminated (x : List Nat) (hx : ∀ c ∈ x, (c != 0) = true) :
    WvStringArray.text (some (x ++ [0])) = x := by
  simp only [WvStringArray.text]
  rw [List.takeWhile_append_of_pos hx]
  simp

theorem WvBuffer.getstr_array (b : WvBuffer) (junk : Nat) :
    (b.getstr junk).1 = some (b.contents ++ [0]) := by
  simp only [WvBuffer.getstr, WvBuffer.move, WvBuffer.used, Option.some.injEq]
  rw [List.take_length, List.drop_replicate]
  have h1 : b.contents.length + 1 - b.contents.length = 1 := by omega
  rw [h1]
  simp only [List.replicate_one]
  rw [List.set_append_right _ _ (le_refl _)]
  simp

/-- C13: `getstr()` returns the array made of the `used()` bytes of the buffer in order followed
by a 0 byte, whatever the fresh array held, and leaves the buffer with `used() == 0`; so for
every string `s` (the null string included, which reads as empty), `putstr(s)` on an empty
buffer followed by `getstr()` returns a string with the characters of `s`. -/
theorem getstr_copies_contents (b e : WvBuffer) (junk : Nat) (s : WvStringArray)
    (he : e.used = 0) :
    (b.getstr junk).1 = some (b.contents ++ [0]) ∧
    (b.getstr junk).2.used = 0 ∧
    WvStringArray.text ((e.putstr s).getstr junk).1 = WvStringArray.text s := by
  refine ⟨WvBuffer.getstr_array b junk, ?_, ?_⟩
  · simp [WvBuffer.getstr, WvBuffer.move, WvBuffer.used, WvBuffer.contents,
      WvBuffer.skipChunks_flatten]
  · have hnil : e.contents = [] := List.length_eq_zero.mp he
    rw [WvBuffer.getstr_array, WvBuffer.putstr, WvBuffer.put_contents, hnil, List.nil_append]
    cases s with
    | none => simp [WvStringArray.cstr, WvStringArray.len, WvStringArray.text]
    | some a =>
      simp only [WvStringArray.cstr, WvStringArray.len, WvStringArray.text]
      rw [List.take_length_takeWhile]
      exact WvStringArray.text_terminated _
        (fun c hc => @List.mem_takeWhile_imp Nat (fun c => c != 0) a c hc)

/-- Witness of C13: `putstr("hi")` on the buffer without chunks, then `getstr()`, gives the
array `h`, `i`, 0. -/
theorem getstr_copies_contents_witness :
    (WvBuffer.mk []).used = 0 ∧
    (((WvBuffer.mk []).putstr (some [104, 105, 0])).getstr 255).1 = some [104, 105, 0] ∧
    WvStringArray.text (((WvBuffer.mk []).putstr (some [104, 105, 0])).getstr 255).1
      = WvStringArray.text (some [104, 105, 0]) :=
  ⟨by decide, by decide,
    (getstr_copies_contents (WvBuffer.mk []) (WvBuffer.mk []) 255 (some [104, 105, 0])
      (by decide)).2.2⟩

theorem WvBuffer.findByte_end (ch : Nat) (l : List Nat) :
    ∀ c, WvBuffer.findByte ch l c = c + l.length ↔ ch ∉ l := by
  induction l with
  | nil => intro c; simp [WvBuffer.findByte]
  | cons x xs ih =>
    intro c
    by_cases hx : x = ch
    · simp [WvBuffer.findByte, hx]
    · have hx1 : ¬ ch = x := fun h => hx h.symm
      simp only [WvBuffer.findByte, hx, if_false, List.length_cons, List.mem_cons, hx1,
        false_or]
      rw [← ih (c + 1)]
      constructor <;> intro h <;> omega

theorem WvBuffer.scan_test (bytelist : List Nat) (reverse : Bool) (ch : Nat) :
    (if reverse then
        WvBuffer.findByte ch (bytelist.take bytelist.length) 0 == bytelist.length
      else WvBuffer.findByte ch (bytelist.take bytelist.length) 0 != bytelist.length)
      = WvBuffer.passes bytelist reverse ch := by
  have h := WvBuffer.findByte_end ch bytelist 0
  rw [Nat.zero_add] at h
  rw [List.take_length]
  by_cases hm : ch ∈ bytelist
  · have hne : ¬ WvBuffer.findByte ch bytelist 0 = bytelist.length := fun he => (h.mp he) hm
    cases reverse <;> simp [WvBuffer.passes, hm, hne]
  · have he : WvBuffer.findByte ch bytelist 0 = bytelist.length := h.mpr hm
    cases reverse <;> simp [WvBuffer.passes, hm, he]

theorem WvBuffer.scanChunk_value (bytelist : List Nat) (reverse : Bool) (str : List Nat) :
    ∀ i, WvBuffer.scanChunk bytelist bytelist.length reverse str i =
      if str.all (WvBuffer.passes bytelist reverse) then none
      else some (i + (str.takeWhile (WvBuffer.passes bytelist reverse)).length) := by
  induction str with
  | nil => intro i; simp [WvBuffer.scanChunk]
  | cons ch rest ih =>
    intro i
    simp only [WvBuffer.scanChunk, WvBuffer.scan_test]
    cases hp : WvBuffer.passes bytelist reverse ch with
    | true =>
      simp only [if_true, ih, List.all_cons, hp, Bool.true_and, List.takeWhile_cons,
        List.length_cons]
      split
      · rfl
      · congr 1; omega
    | false =>
      simp [List.takeWhile_cons, hp]

theorem WvBuffer.peekChunk_split (cs : List (List Nat)) :
    ∀ offset, offset < cs.flatten.length →
      ∃ tail, cs.flatten.drop offset = WvBuffer.peekChunk cs offset ++ tail ∧
        WvBuffer.peekChunk cs offset ≠ [] := by
  induction cs with
  | nil => intro offset h; simp at h
  | cons c cs ih =>
    intro offset h
    by_cases hlt : offset < c.length
    · refine ⟨cs.flatten, ?_, ?_⟩
      · simp only [WvBuffer.peekChunk, hlt, if_true, List.flatten_cons]
        rw [List.drop_append_of_le_length (le_of_lt hlt)]
      · simp only [WvBuffer.peekChunk, hlt, if_true, ne_eq, List.drop_eq_nil_iff, not_le]
    · have hlen : offset - c.length < cs.flatten.length := by
        simp only [List.flatten_cons, List.length_append] at h
        omega
      obtain ⟨tail, h1, h2⟩ := ih (offset - c.length) hlen
      refine ⟨tail, ?_, ?_⟩
      · simp only [WvBuffer.peekChunk, hlt, if_false, List.flatten_cons]
        rw [List.drop_append_eq_append_drop, List.drop_eq_nil_of_le (not_lt.mp hlt),
          List.nil_append, h1]
      · simpa only [WvBuffer.peekChunk, hlt, if_false] using h2

theorem WvBuffer.matchLoop_succ (b : WvBuffer) (chlist : List Nat) (numbytes : Nat)
    (reverse : Bool) (fuel offset : Nat) :
    WvBuffer.matchLoop b chlist numbytes reverse (fuel + 1) offset =
      if offset < b.used then
        match WvBuffer.scanChunk chlist numbytes reverse
            (b.peek offset (b.optpeekable offset)) 0 with
        | some i => some (offset + i)
        | none => WvBuffer.matchLoop b chlist numbytes reverse fuel (offset + b.optpeekable offset)
      else some (if reverse then offset else 0) := rfl

theorem WvBuffer.matchLoop_value (b : WvBuffer) (bytelist : List Nat) (reverse : Bool) :
    ∀ (n fuel offset : Nat), offset ≤ b.used → (b.contents.drop offset).length ≤ n → n < fuel →
      WvBuffer.matchLoop b bytelist bytelist.length reverse fuel offset =
        some (if (b.contents.drop offset).all (WvBuffer.passes bytelist reverse) then
            (if reverse then b.used else 0)
          else offset +
            ((b.contents.drop offset).takeWhile (WvBuffer.passes bytelist reverse)).length) := by
  intro n
  induction n with
  | zero =>
    intro fuel offset hle hlen hfuel
    obtain ⟨f, rfl⟩ : ∃ f, fuel = f + 1 := ⟨fuel - 1, by omega⟩
    have hoff : offset = b.used := by
      simp only [List.length_drop, WvBuffer.used] at hlen hle ⊢
      omega
    have hnil : b.contents.drop offset = [] := by
      rw [hoff, WvBuffer.used]; exact List.drop_length _
    rw [WvBuffer.matchLoop_succ, hnil]
    simp [hoff]
  | succ n ih =>
    intro fuel offset hle hlen hfuel
    obtain ⟨f, rfl⟩ : ∃ f, fuel = f + 1 := ⟨fuel - 1, by omega⟩
    rw [WvBuffer.matchLoop_succ]
    by_cases hlt : offset < b.used
    · obtain ⟨tail, hsplit, hne⟩ := WvBuffer.peekChunk_split b.chunks offset hlt
      have hpeek : b.peek offset (b.optpeekable offset) = WvBuffer.peekChunk b.chunks offset := by
        simp only [WvBuffer.peek, WvBuffer.optpeekable, List.take_length]
      have hsplit1 : b.contents.drop offset = WvBuffer.peekChunk b.chunks offset ++ tail := hsplit
      have hpos : 0 < (WvBuffer.peekChunk b.chunks offset).length :=
        List.length_pos.mpr hne
      rw [if_pos hlt, hpeek, WvBuffer.scanChunk_value, hsplit1]
      by_cases hall : (WvBuffer.peekChunk b.chunks offset).all (WvBuffer.passes bytelist reverse)
          = true
      · have hdrop : b.contents.drop (offset + b.optpeekable offset) = tail := by
          rw [← List.drop_drop, hsplit1, WvBuffer.optpeekable, List.drop_left]
        have hlen1 := congrArg List.length hsplit1
        simp only [List.length_append, List.length_drop] at hlen1
        have hlenn : (b.contents.drop offset).length ≤ n + 1 := hlen
        simp only [List.length_drop] at hlenn
        have hstep := ih f (offset + b.optpeekable offset)
          (by simp only [WvBuffer.used, WvBuffer.optpeekable] at hlt ⊢; omega)
          (by rw [hdrop]; omega) (by omega)
        rw [hdrop] at hstep
        have hpre : ∀ a ∈ WvBuffer.peekChunk b.chunks offset,
            WvBuffer.passes bytelist reverse a = true := List.all_eq_true.mp hall
        have hopt : b.optpeekable offset = (WvBuffer.peekChunk b.chunks offset).length := rfl
        simp only [hall, if_true, hstep, List.all_append, Bool.true_and,
          List.takeWhile_append_of_pos hpre, List.length_append]
        split
        · rfl
        · congr 1; omega
      · have htw : ¬ (List.takeWhile (WvBuffer.passes bytelist reverse)
            (WvBuffer.peekChunk b.chunks offset)).length
              = (WvBuffer.peekChunk b.chunks offset).length := by
          intro heq
          apply hall
          rw [List.all_eq_true]
          intro a ha
          have hfull := List.takeWhile_prefix (WvBuffer.passes bytelist reverse)
            (l := WvBuffer.peekChunk b.chunks offset)
          have := hfull.eq_of_length heq
          rw [← this] at ha
          exact List.mem_takeWhile_imp ha
        simp only [Bool.not_eq_true] at hall
        simp only [hall, Bool.false_eq_true, if_false, List.all_append, Bool.false_and,
          List.takeWhile_append, htw, Nat.zero_add]
    · have hoff : offset = b.used := by omega
      have hnil : b.contents.drop offset = [] := by
        rw [hoff, WvBuffer.used]; exact List.drop_length _
      rw [if_neg hlt, hnil]
      simp [hoff]

theorem WvBuffer.match_value (b : WvBuffer) (bytelist : List Nat) (reverse : Bool) :
    b._match bytelist bytelist.length reverse =
      some (if b.contents.all (WvBuffer.passes bytelist reverse) then
          (if reverse then b.used else 0)
        else (b.contents.takeWhile (WvBuffer.passes bytelist reverse)).length) := by
  have h := WvBuffer.matchLoop_value b bytelist reverse b.used (b.used + 1) 0 (Nat.zero_le _)
    (by simp [WvBuffer.used]) (Nat.lt_succ_self _)
  simpa only [List.drop_zero, Nat.zero_add] using h

/-- C17, evaluated on the code: on the buffer with the bytes `a`, `a` in one chunk and the byte
list `a`, `_match` with `reverse = false` returns 0, while the longest run of leading listed bytes
has length 2; with `reverse = true` and no byte listed (list `b`) the same function returns 2.
In general `_match` with `reverse = false` returns, for every way the contents are split into
chunks, the length of the longest leading run of listed bytes when some byte of the buffer is
not listed, and 0 when every byte is listed. -/
theorem match_all_listed_returns_zero :
    (WvBuffer.mk [[97, 97]])._match [97] 1 false = some 0 ∧
    ((WvBuffer.mk [[97, 97]]).contents.takeWhile (fun c => [97].contains c)).length = 2 ∧
    (WvBuffer.mk [[97, 97]])._match [98] 1 true = some 2 ∧
    (WvBuffer.mk [[97], [97, 98]])._match [97] 1 false = some 2 ∧
    (∀ (b : WvBuffer) (bytelist : List Nat),
      b._match bytelist bytelist.length false =
        some (if b.contents.all (fun c => bytelist.contains c) then 0
          else (b.contents.takeWhile (fun c => bytelist.contains c)).length)) := by
  refine ⟨by decide, by decide, by decide, by decide, ?_⟩
  intro b bytelist
  have hfun : WvBuffer.passes bytelist false = fun c => bytelist.contains c := by
    funext c; simp [WvBuffer.passes]
  have h := WvBuffer.match_value b bytelist false
  rw [hfun] at h
  simpa using h

/-! ### The D-Bus server -/

theorem List.find?_split {α : Type} (p : α → Bool) (pre post : List α) (e : α)
    (he : p e = true) (hpre : ∀ x ∈ pre, p x = false) :
    (pre ++ e :: post).find? p = some e := by
  induction pre with
  | nil => simp [List.find?, he]
  | cons x pre ih =>
    have hx : p x = false := hpre x (List.mem_cons_self _ _)
    simp only [List.cons_append, List.find?, hx]
    exact ih (fun y hy => hpre y (List.mem_cons_of_mem _ hy))

theorem WvDBusServer.send_rsdict (s : WvDBusServer) (p : Nat) (msg : WvDBusMsg) :
    (s.send p msg).2.rsdict = s.rsdict := by
  unfold WvDBusServer.send
  cases s.conns.get? p <;> rfl

/-- C14, evaluated on the code: with the services `:3` and `:4` each about to give serial 2,
the call of `:1` to `svc.one` and then the call of `:2` to `svc.two` are both forwarded with
serial 2; the reply from `:4` with reply serial 2 is then sent to `:1` and not to the caller
`:2`, and a second reply with serial 2 is forwarded as well (to `:2`), `do_bridge_msg` returning
true. -/
theorem bridge_reply_goes_to_other_caller :
    ((twoServices.do_bridge_msg 0 (callTo "svc.one")).2.do_bridge_msg 1 (callTo "svc.two")).2.rsdict
      = [⟨2, 0⟩, ⟨2, 1⟩] ∧
    ((((twoServices.do_bridge_msg 0 (callTo "svc.one")).2.do_bridge_msg 1
        (callTo "svc.two")).2.do_bridge_msg 3 (replyTo 2)).2.conns.map
          (fun c => c.outbox.map (fun m => m.isReply)))
      = [[true], [], [false], [false]] ∧
    ((((twoServices.do_bridge_msg 0 (callTo "svc.one")).2.do_bridge_msg 1
        (callTo "svc.two")).2.do_bridge_msg 3 (replyTo 2)).2.rsdict) = [⟨2, 1⟩] ∧
    (((((twoServices.do_bridge_msg 0 (callTo "svc.one")).2.do_bridge_msg 1
        (callTo "svc.two")).2.do_bridge_msg 3 (replyTo 2)).2.do_bridge_msg 3 (replyTo 2)).1)
      = true := by
  decide

/-- C15, evaluated on the code: after `RequestName("foo")` from the connection `:1`, the
`RequestName("foo")` from the connection `:2` finds `:1` in `cdict` under that name, and the
`assert(!cdict[conn->name])` of `register_conn` (line 71) fails; so does a second
`RequestName("foo")` from `:1` itself. -/
theorem request_name_twice_fails_assert :
    twoClients.serve [(0, requestName "foo")] ≠ ServerResult.assertionFailed 71 ∧
    ((twoClients.setName 0 (some "foo")).register_conn 0).map (fun s => s.cdictFind (some "foo"))
      = some (some 0) ∧
    twoClients.serve [(0, requestName "foo"), (1, requestName "foo")]
      = ServerResult.assertionFailed 71 ∧
    twoClients.serve [(0, requestName "foo"), (0, requestName "foo")]
      = ServerResult.assertionFailed 71 := by
  decide

/-- What `do_bridge_msg` does while serials do not collide: when it forwards a call from `c` to
the connection `d` registered for its destination, it sends it on `d` and appends the entry
(serial returned by the send, `c`) to `rsdict`.  When a reply is processed (from whatever connection `sender`) while the entry
`(s, c)` for its reply serial `s` is pending and no entry added before it has the serial `s`,
the reply is sent to `c`, the entry is removed and `do_bridge_msg` returns true; if moreover no
other pending entry has the serial `s`, a second reply with serial `s` is not forwarded and
`do_bridge_msg` returns false for it. -/
theorem bridge_reply_routing (s t : WvDBusServer) (c d sender : Nat) (call reply : WvDBusMsg)
    (pre post : List WvDBusReplySerial) :
    (call.isReply = false → WvString.isBlank call.dest = false →
      s.cdictFind call.dest = some d →
        (s.do_bridge_msg c call).1 = true ∧
        (s.do_bridge_msg c call).2.rsdict = s.rsdict ++ [⟨(s.send d call).1, c⟩] ∧
        (s.do_bridge_msg c call).2.conns = (s.send d call).2.conns) ∧
    (reply.isReply = true → t.rsdict = pre ++ ⟨reply.replyserial, c⟩ :: post →
      (∀ e ∈ pre, e.serial ≠ reply.replyserial) →
        t.do_bridge_msg sender reply
          = (true, { (t.send c reply).2 with rsdict := pre ++ post }) ∧
        ((∀ e ∈ post, e.serial ≠ reply.replyserial) →
          (t.do_bridge_msg sender reply).2.do_bridge_msg sender reply
            = (false, (t.do_bridge_msg sender reply).2))) := by
  refine ⟨?_, ?_⟩
  · intro hcall hdest hd
    simp only [WvDBusServer.do_bridge_msg, hcall, Bool.false_eq_true, if_false, hdest,
      Bool.not_false, if_true, hd, and_self]
  · intro hreply hrs hpre
    have hfind : t.rsdictFind reply.replyserial = some ⟨reply.replyserial, c⟩ := by
      rw [WvDBusServer.rsdictFind, hrs]
      exact List.find?_split _ pre post _ (by simp) (fun x hx => by simpa using hpre x hx)
    have hnot : (⟨reply.replyserial, c⟩ : WvDBusReplySerial) ∉ pre :=
      fun hmem => hpre _ hmem rfl
    have herase : t.rsdict.erase ⟨reply.replyserial, c⟩ = pre ++ post := by
      rw [hrs, List.erase_append_right _ hnot, List.erase_cons_head]
    have hfirst : t.do_bridge_msg sender reply
        = (true, { (t.send c reply).2 with rsdict := pre ++ post }) := by
      simp only [WvDBusServer.do_bridge_msg, hreply, if_true, hfind, herase]
    refine ⟨hfirst, ?_⟩
    intro hpost
    rw [hfirst]
    have hnone : WvDBusServer.rsdictFind { (t.send c reply).2 with rsdict := pre ++ post }
        reply.replyserial = none := by
      simp only [WvDBusServer.rsdictFind, List.find?_eq_none, List.mem_append, beq_iff_eq]
      rintro x (hx | hx)
      · exact hpre x hx
      · exact hpost x hx
    simp only [WvDBusServer.do_bridge_msg, hreply, if_true, hnone]

/-- An instance of the routing without collision: the call of `:1` to `svc.one` is forwarded
with serial 2 while nothing else is pending; the reply with reply serial 2 is then sent to `:1`, and a second one is refused. -/
theorem bridge_reply_routing_witness :
    (twoServices.do_bridge_msg 0 (callTo "svc.one")).2.rsdict = [] ++ [⟨2, 0⟩] ∧
    (twoServices.do_bridge_msg 0 (callTo "svc.one")).2.do_bridge_msg 2 (replyTo 2)
      = (true, { ((twoServices.do_bridge_msg 0 (callTo "svc.one")).2.send 0 (replyTo 2)).2 with
          rsdict := [] ++ [] }) ∧
    ((twoServices.do_bridge_msg 0 (callTo "svc.one")).2.do_bridge_msg 2
        (replyTo 2)).2.do_bridge_msg 2 (replyTo 2)
      = (false, ((twoServices.do_bridge_msg 0 (callTo "svc.one")).2.do_bridge_msg 2
          (replyTo 2)).2) :=
  ⟨((bridge_reply_routing twoServices twoServices 0 2 2 (callTo "svc.one") (replyTo 2) []
      []).1 (by decide) (by decide) (by decide)).2.1,
    ((bridge_reply_routing twoServices (twoServices.do_bridge_msg 0 (callTo "svc.one")).2 0 2 2
      (callTo "svc.one") (replyTo 2) [] []).2 (by decide) (by decide) (by simp)).1,
    ((bridge_reply_routing twoServices (twoServices.do_bridge_msg 0 (callTo "svc.one")).2 0 2 2
      (callTo "svc.one") (replyTo 2) [] []).2 (by decide) (by decide) (by simp)).2 (by simp)⟩

end WvStreams
